import Mathlib

/-!
# Boilerplate header check (`hack/boilerplate/boilerplate.go`)

A shallow embedding of the header verifier `filePasses` and of the regular
expressions it applies.  A file content or a reference is a list of bytes; a
byte is written as a `Char`, so that the literals of the source can be quoted
as they stand.  Lengths are byte counts, as `len` is in the source.

Go's `regexp` package picks the leftmost match and, among the matches starting
there, the one a backtracking engine finds first (greedy operators take as much
as they can).  `ReplaceAll` rewrites the successive non-overlapping matches
from left to right and resumes the search where the previous match ended.

The second part embeds the rest of the program: the extension of a file name
(`getFileExtension`), the table of references (`getRefs`), the file list
(`getFileList`, with `filepath.Walk` over a file tree and the exclusion pattern
`skippedPaths`) and the report of `main`.  The file system is a parameter of
these functions, and an abort of the process is the result `none`.
-/

namespace Boilerplate

/-- File contents and references: sequences of bytes. -/
abbrev Bytes := List Char

/-- The literal `Copyright `, the common start of lines 111 and 117. -/
def copyrightLit : Bytes := "Copyright ".toList

/-- The literal `Copyright YEAR` (pattern of line 111, replacement of line 118). -/
def copyrightYEAR : Bytes := "Copyright YEAR".toList

/-- The literal start `// +build` of a build-tag line (pattern of line 91). -/
def buildLit : Bytes := "// +build".toList

/-- The literal start `#!` of a shebang line (pattern of line 99). -/
def shebangLit : Bytes := "#!".toList

/-- Lines 71-72 and 83-84: `regexp.MustCompile("\r").ReplaceAll(data, nil)`
deletes every carriage return. -/
def stripCR (data : Bytes) : Bytes :=
  data.filter (fun c => decide (c ≠ '\r'))

/-- Length of a match of `.*\r{0,1}\n` at the front of `xs`: `.` takes every
byte but a newline, so the match runs up to and including the first newline,
and there is none when no newline follows. -/
def lineLen : Bytes → Option Nat
  | [] => none
  | c :: t => if c = '\n' then some 1 else (lineLen t).map (· + 1)

/-- Length of a match of `\r{0,1}\n` at the front of `xs`. -/
def blankLen : Bytes → Option Nat
  | '\r' :: '\n' :: _ => some 2
  | '\n' :: _ => some 1
  | _ => none

/-- Length of a match of `// \+build.*\r{0,1}\n` at the front of `xs`. -/
def buildLineLen (xs : Bytes) : Option Nat :=
  if buildLit <+: xs then (lineLen (xs.drop buildLit.length)).map (· + buildLit.length)
  else none

/-- Length of the match of `(// \+build.*\r{0,1}\n)+\r{0,1}\n` at the front of
`xs`.  The group must match once; the greedy `+` then tries a further
repetition before it tries the closing `\r{0,1}\n`.  The first argument bounds
the number of repetitions. -/
def buildBlockLen : Nat → Bytes → Option Nat
  | 0, _ => none
  | fuel + 1, xs =>
    match buildLineLen xs with
    | none => none
    | some n =>
      match buildBlockLen fuel (xs.drop n) with
      | some m => some (n + m)
      | none => (blankLen (xs.drop n)).map (n + ·)

/-- Match of the pattern of line 91 at the front of `xs` (every repetition
takes at least one byte, so `xs.length` repetitions are never exceeded). -/
def buildTagsAt (xs : Bytes) : Option Nat :=
  buildBlockLen xs.length xs

/-- Length of the greedy match of `(\r{0,1}\n)*` at the front of `xs`. -/
def blankRunLen : Bytes → Nat
  | '\r' :: '\n' :: t => 2 + blankRunLen t
  | '\n' :: t => 1 + blankRunLen t
  | _ => 0

/-- Match of `(#!.*\r{0,1}\n)(\r{0,1}\n)*`, the pattern of line 99, at the
front of `xs`. -/
def shebangAt (xs : Bytes) : Option Nat :=
  if shebangLit <+: xs then
    (lineLen (xs.drop shebangLit.length)).map
      (fun n => shebangLit.length + n + blankRunLen (xs.drop (shebangLit.length + n)))
  else none

/-- `ReplaceAll(data, nil)` for a pattern `(?m)^...`: `m` gives the length of
the match of the rest of the pattern at the front of its argument.  `bol` says
whether the current position starts a line (the start of the text, or the
byte before it is a newline) and `skip` counts the bytes of the current match
that are still to be deleted.  A match is looked for only at the start of a
line; an empty match deletes nothing. -/
def deleteAll (m : Bytes → Option Nat) : Bool → Nat → Bytes → Bytes
  | _, _, [] => []
  | _, skip + 1, c :: t => deleteAll m (decide (c = '\n')) skip t
  | bol, 0, c :: t =>
    match (if bol then m (c :: t) else none) with
    | some (n + 1) => deleteAll m (decide (c = '\n')) n t
    | _ => c :: deleteAll m (decide (c = '\n')) 0 t

/-- Lines 91-92: delete every match of the build-tag pattern. -/
def stripBuildTags (data : Bytes) : Bytes := deleteAll buildTagsAt true 0 data

/-- Lines 99-100: delete every match of the shebang pattern. -/
def stripShebang (data : Bytes) : Bytes := deleteAll shebangAt true 0 data

/-- Line 112: `regexp.MustCompile("Copyright YEAR").Match(data)`, whether the
literal occurs somewhere in `data`. -/
def hasCopyrightYEAR : Bytes → Bool
  | [] => false
  | c :: t => (copyrightYEAR <+: (c :: t)) || hasCopyrightYEAR t

/-- Whether `Copyright \d{4}` matches at the front of `xs` (`\d` is an ASCII
digit). -/
def yearAt (xs : Bytes) : Bool :=
  (copyrightLit <+: xs) &&
    match xs.drop copyrightLit.length with
    | a :: b :: c :: d :: _ => a.isDigit && b.isDigit && c.isDigit && d.isDigit
    | _ => false

/-- Lines 117-118: `ReplaceAll(data, "Copyright YEAR")` for the pattern
`Copyright \d{4}`; `skip` counts the bytes of the current match still to be
dropped (a match is fourteen bytes long). -/
def replaceYearAux : Nat → Bytes → Bytes
  | _, [] => []
  | skip + 1, _ :: t => replaceYearAux skip t
  | 0, c :: t =>
    if yearAt (c :: t) then copyrightYEAR ++ replaceYearAux 13 t
    else c :: replaceYearAux 0 t

/-- Lines 117-118 on the whole of `data`. -/
def replaceYear (data : Bytes) : Bytes := replaceYearAux 0 data

/-- Lines 83-101: the content that is compared, after the carriage returns are
removed and the leading block of a Go or shell file is deleted. -/
def preprocess (extension : String) (data : Bytes) : Bytes :=
  let data := stripCR data
  let data := if extension = "go" then stripBuildTags data else data
  if extension = "sh" then stripShebang data else data

/-- Lines 103-120 of `filePasses`, on the pre-processed content. -/
def headerMatches (data ref : Bytes) : Bool :=
  if data.length < ref.length then false
  else
    let data := data.take ref.length
    if hasCopyrightYEAR data then false
    else decide (replaceYear data = ref)

/-- `filePasses(filename, ref)`: `data` is the content read from the file and
`extension` is `getFileExtension(filename)`. -/
def filePasses (extension : String) (data ref : Bytes) : Bool :=
  headerMatches (preprocess extension data) ref

/-- A line `// +build ...\n`: the literal start, bytes `s` without a newline,
and the newline. -/
def buildTagLine (s : Bytes) : Bytes := buildLit ++ s ++ ['\n']

/-- A block of build-tag lines, one for each element of `ls`. -/
def buildTagBlock : List Bytes → Bytes
  | [] => []
  | s :: ls => buildTagLine s ++ buildTagBlock ls

/-- The text ends with a complete line (closed by a newline) that does not
start with `// +build`. -/
def LastLineNoBuildTag (x : Bytes) : Prop :=
  ∃ v l, x = v ++ l ++ ['\n'] ∧ (v = [] ∨ ∃ w, v = w ++ ['\n']) ∧ '\n' ∉ l ∧ ¬ buildLit <+: l

/-- Four ASCII digits, what `\d{4}` matches. -/
def IsYear (u : Bytes) : Prop := u.length = 4 ∧ ∀ c ∈ u, c.isDigit = true

/-- Two contents that differ at most in the four digits of occurrences of
`Copyright <4 digits>`. -/
inductive YearVariant : Bytes → Bytes → Prop
  | nil : YearVariant [] []
  | same (c : Char) {x y : Bytes} : YearVariant x y → YearVariant (c :: x) (c :: y)
  | year {u v x y : Bytes} : IsYear u → IsYear v → YearVariant x y →
      YearVariant (copyrightLit ++ u ++ x) (copyrightLit ++ v ++ y)

/-- Two contents of the same length that differ at most where both hold an
ASCII digit. -/
def DigitVariant (x y : Bytes) : Prop :=
  List.Forall₂ (fun a b => a = b ∨ (a.isDigit = true ∧ b.isDigit = true)) x y

/-! ## Paths (`strings`, `path/filepath`)

The functions of the standard library are modelled on their documented
behaviour on a Unix system (separator `/`, no volume names).  A string is the
list of its bytes; the model is about ASCII paths, where a byte is a
character. -/

/-- Strings and paths. -/
abbrev Str := List Char

/-- The function `strings.ToLower`, on ASCII: `A`..`Z` become `a`..`z`. -/
def toLower (s : Str) : Str := s.map Char.toLower

/-- The function `strings.Split(s, sep)` for a separator of one byte: the
pieces of `s` between the separators; a string without separator is the only
piece. -/
def split (sep : Char) : Str → List Str
  | [] => [[]]
  | c :: t =>
    if c = sep then [] :: split sep t
    else
      match split sep t with
      | [] => [[c]]
      | piece :: pieces => (c :: piece) :: pieces

/-- The function `strings.Join(elems, "/")`. -/
def joinSep : List Str → Str
  | [] => []
  | [e] => e
  | e :: f :: es => e ++ '/' :: joinSep (f :: es)

/-- The function `filepath.Base`: the last element of the path, trailing
slashes removed first; `.` for the empty path and `/` for a path of slashes. -/
def base (path : Str) : Str :=
  if path = [] then ['.']
  else
    let path := (path.reverse.dropWhile (fun c => c = '/')).reverse
    let path := (path.reverse.takeWhile (fun c => c ≠ '/')).reverse
    if path = [] then ['/'] else path

/-- One element of the path in `filepath.Clean`: an empty element and `.` are
dropped, `..` removes the element before it (at the root it is dropped, in
front of a relative path it is kept), any other element is appended. -/
def cleanStep (rooted : Bool) (out : List Str) (e : Str) : List Str :=
  if e = [] ∨ e = ['.'] then out
  else if e = ['.', '.'] then
    if out ≠ [] ∧ out.getLast? ≠ some ['.', '.'] then out.dropLast
    else if rooted then out
    else out ++ [e]
  else out ++ [e]

/-- The function `filepath.Clean`: the shortest path equivalent to `path` by
lexical processing. -/
def clean (path : Str) : Str :=
  if path = [] then ['.']
  else
    let rooted := decide (path.head? = some '/')
    let out := joinSep ((split '/' path).foldl (cleanStep rooted) [])
    if rooted then '/' :: out
    else if out = [] then ['.'] else out

/-- The function `filepath.Dir`: the path up to and including its last slash,
cleaned. -/
def dir (path : Str) : Str :=
  clean (path.reverse.dropWhile (fun c => c ≠ '/')).reverse

/-- The function `filepath.Join(a, b)`: the non-empty elements joined by `/`
and cleaned. -/
def join (a b : Str) : Str :=
  if a ≠ [] then clean (a ++ '/' :: b)
  else if b ≠ [] then clean b
  else []

/-- The function `getFileExtension` (lines 124-127).  `strings.Split` returns
at least one piece, so the index `len(splitted)-1` is in range. -/
def getFileExtension (filename : Str) : Str :=
  let splitted := split '.' (base filename)
  toLower (splitted.getLastD [])

/-- The part of `s` after its last `c`, all of `s` when it has no `c`: the
extension of a base name in the words of the specification. -/
def afterLast (c : Char) (s : Str) : Str :=
  (s.reverse.takeWhile (fun x => x ≠ c)).reverse

/-! ## The exclusion pattern (line 32) -/

/-- The source text of the regular expression `skippedPaths`. -/
def skippedPattern : Str :=
  ("Godeps|third_party|_gopath|_output|\\.git|cluster/env.sh|vendor|" ++
    "test/e2e/generated/bindata.go|site/themes/docsy").toList

/-- One alternative of the pattern, read byte by byte: `\c` is the literal `c`
(`some c`), an unescaped `.` stands for any character but a newline (`none`),
any other byte is itself. -/
def parseAlt : Str → List (Option Char)
  | [] => []
  | [c] => if c = '.' then [none] else [some c]
  | c :: d :: t =>
    if c = '\\' then some d :: parseAlt t
    else if c = '.' then none :: parseAlt (d :: t)
    else some c :: parseAlt (d :: t)

/-- The alternatives of the pattern. -/
def skippedAlts : List (List (Option Char)) := (split '|' skippedPattern).map parseAlt

/-- Does the alternative match at the start of the string? -/
def matchHere : List (Option Char) → Str → Bool
  | [], _ => true
  | _ :: _, [] => false
  | p :: ps, c :: cs =>
    (match p with
      | some x => decide (c = x)
      | none => decide (c ≠ '\n')) && matchHere ps cs

/-- Does the alternative match somewhere in the string? -/
def matchAnywhere (pat : List (Option Char)) : Str → Bool
  | [] => matchHere pat []
  | c :: cs => matchHere pat (c :: cs) || matchAnywhere pat cs

/-- The test `skippedPaths.MatchString(s)`: one of the alternatives matches
somewhere in `s`. -/
def skippedPaths (s : Str) : Bool := skippedAlts.any (fun pat => matchAnywhere pat s)

/-! ## The reference table (`getRefs`) -/

/-- The table of references, a `map[string][]byte` from extension keys to
contents.  A byte slice is modelled by its contents: `nil` and the empty slice
are both `[]`.  `regexp.ReplaceAll` returns `nil` exactly when its result is
empty, so a value stored by `getRefs` is `nil` exactly when it is empty. -/
abbrev Refs := List (Str × Bytes)

/-- The lookup `refs[key]`: a missing key reads as `nil`. -/
def mapGet : Refs → Str → Bytes
  | [], _ => []
  | (k, v) :: m, key => if k = key then v else mapGet m key

/-- The assignment `refs[key] = v`. -/
def mapSet (m : Refs) (key : Str) (v : Bytes) : Refs :=
  (key, v) :: m.filter (fun kv => decide (kv.1 ≠ key))

/-- The function `getRefs` (lines 62-75).  The file system is given by `glob`
(the names `filepath.Glob` returns for a pattern) and `readFile` (the content
of a file, `none` when it cannot be read).  The result `none` is the abort of
the process: the index `[1]` out of range or `log.Fatal`. -/
def getRefs (glob : Str → List Str) (readFile : Str → Option Bytes) (dir : Str) :
    Option Refs :=
  (glob (dir ++ "/*.txt".toList)).foldlM
    (fun refs filename =>
      match (split '.' filename)[1]? with
      | none => none
      | some extension =>
        match readFile filename with
        | none => none
        | some data => some (mapSet refs (toLower extension) (stripCR data)))
    []

/-! ## The file list (`getFileList`) -/

/-- An entry visited by `filepath.Walk`: its path and `info.IsDir()`. -/
structure Entry where
  path : Str
  isDir : Bool
deriving DecidableEq

mutual
/-- A file tree: a file (any entry that is not a directory) or a directory
with its entries, in the order in which `filepath.Walk` visits them. -/
inductive Tree where
  | file : Tree
  | dir : Forest → Tree
/-- The entries of a directory: a name and the tree under it, each. -/
inductive Forest where
  | nil : Forest
  | cons : Str → Tree → Forest → Forest
end

mutual
/-- The function `filepath.Walk`, as the list of the calls of its callback:
the entry itself, then for a directory the walks of its entries, each under
the path `Join(path, name)`. -/
def walk (path : Str) : Tree → List Entry
  | .file => [⟨path, false⟩]
  | .dir names => ⟨path, true⟩ :: walkNames path names
/-- The loop of `filepath.Walk` over the names of a directory. -/
def walkNames (path : Str) : Forest → List Entry
  | .nil => []
  | .cons name t rest => walk (join path name) t ++ walkNames path rest
end

/-- The callback of lines 132-139: one visited entry and the list `outFiles`
so far. -/
def walkFn (extensions : Refs) (outFiles : List Str) (e : Entry) : List Str :=
  if !e.isDir && !skippedPaths (dir e.path) then
    if mapGet extensions (toLower (getFileExtension e.path)) ≠ [] then outFiles ++ [e.path]
    else outFiles
  else outFiles

/-- The function `getFileList` (lines 129-148); `tree` is the file tree found
at `rootDir`. -/
def getFileList (tree : Tree) (rootDir : Str) (extensions : Refs) (files : List Str) :
    List Str :=
  if files.length = 0 then (walk rootDir tree).foldl (walkFn extensions) []
  else files

/-- A name as a directory holds it: not empty, without slash, and neither `.`
nor `..`. -/
def simpleName (name : Str) : Bool :=
  decide (name ≠ [] ∧ '/' ∉ name ∧ name ≠ ['.'] ∧ name ≠ ['.', '.'])

mutual
/-- All names in the tree are names as a directory holds them. -/
def Tree.wellNamed : Tree → Bool
  | .file => true
  | .dir names => names.wellNamed
/-- All names in the entries are names as a directory holds them. -/
def Forest.wellNamed : Forest → Bool
  | .nil => true
  | .cons name t rest => simpleName name && t.wellNamed && rest.wellNamed
end

/-! ## The report (`main`) -/

/-- The line written by `fmt.Println("number of files ", len(files))` (line
52), without its newline: `Println` puts a space between its operands, behind
the space the literal ends with. -/
def countLine (n : Nat) : Str := "number of files ".toList ++ ' ' :: (Nat.repr n).toList

/-- The loop of lines 53-57 with the lines written so far; `none` is the abort
of `filePasses` on a file that cannot be read. -/
def reportLoop (readFile : Str → Option Bytes) (refs : Refs) :
    List Str → List Str → Option (List Str)
  | [], out => some out
  | file :: files, out =>
    match readFile file with
    | none => none
    | some data =>
      if filePasses (String.mk (getFileExtension file)) data (mapGet refs (getFileExtension file))
      then reportLoop readFile refs files out
      else reportLoop readFile refs files (out ++ [file])

/-- The function `main` (lines 45-60): the lines written to standard output,
`none` when the process aborts.  The flags and the global `filenames` are
parameters, and so is the file system (`glob`, `readFile`, `tree`). -/
def main (glob : Str → List Str) (readFile : Str → Option Bytes) (tree : Tree)
    (boilerplatedir rootdir : Str) (filenames : List Str) : Option (List Str) :=
  match getRefs glob readFile boilerplatedir with
  | none => none
  | some refs =>
    if refs.length = 0 then none
    else
      let files := getFileList tree rootdir refs filenames
      reportLoop readFile refs files [countLine files.length]

/-! ## Basic facts about the patterns -/

theorem hasCopyrightYEAR_iff (xs : Bytes) :
    hasCopyrightYEAR xs = true ↔ copyrightYEAR <:+: xs := by
  induction xs with
  | nil =>
    simp only [hasCopyrightYEAR, List.infix_nil, Bool.false_eq_true, false_iff]
    decide
  | cons c t ih =>
    simp only [hasCopyrightYEAR, Bool.or_eq_true, decide_eq_true_eq, ih, List.infix_cons_iff]

theorem yearAt_length {xs : Bytes} (h : yearAt xs = true) : 14 ≤ xs.length := by
  unfold yearAt at h
  simp only [Bool.and_eq_true, decide_eq_true_eq] at h
  obtain ⟨⟨r, rfl⟩, h2⟩ := h
  have hl : copyrightLit.length = 10 := by decide
  rw [List.drop_left] at h2
  match r, h2 with
  | a :: b :: c :: d :: r, _ =>
    simp only [List.length_append, hl, List.length_cons]
    omega

theorem replaceYearAux_length (xs : Bytes) :
    ∀ k, k ≤ xs.length → (replaceYearAux k xs).length = xs.length - k := by
  induction xs with
  | nil => intro k _; simp [replaceYearAux]
  | cons c t ih =>
    intro k hk
    cases k with
    | zero =>
      simp only [replaceYearAux]
      split
      · rename_i hy
        have h14 := yearAt_length hy
        simp only [List.length_cons] at h14
        have hc : copyrightYEAR.length = 14 := by decide
        rw [List.length_append, ih 13 (by omega), hc]
        simp only [List.length_cons]
        omega
      · simp [ih 0 (Nat.zero_le _)]
    | succ k =>
      simp only [replaceYearAux, List.length_cons] at hk ⊢
      rw [ih k (by omega)]
      omega

/-- Year normalisation keeps the length: pattern and replacement are both
fourteen bytes long. -/
theorem replaceYear_length (xs : Bytes) : (replaceYear xs).length = xs.length := by
  simpa using replaceYearAux_length xs 0 (Nat.zero_le _)

/-! ## The verdict -/

/-- C5: a file whose pre-processed content is strictly shorter than the
reference fails, whatever its content. -/
theorem filePasses_short (extension : String) (data ref : Bytes)
    (h : (preprocess extension data).length < ref.length) :
    filePasses extension data ref = false := by
  simp [filePasses, headerMatches, h]

theorem filePasses_short_witness :
    (preprocess "go" "// +build a\n\nCopy".toList).length
        < "Copyright YEAR The Foo Authors\n".toList.length ∧
      filePasses "go" "// +build a\n\nCopy".toList
        "Copyright YEAR The Foo Authors\n".toList = false :=
  ⟨by decide, filePasses_short _ _ _ (by decide)⟩

/-- C2: a file fails as soon as the literal `Copyright YEAR` occurs within the
first `len(ref)` bytes of its pre-processed content. -/
theorem filePasses_placeholder (extension : String) (data ref : Bytes)
    (h : copyrightYEAR <:+: (preprocess extension data).take ref.length) :
    filePasses extension data ref = false := by
  have h2 := (hasCopyrightYEAR_iff _).2 h
  unfold filePasses headerMatches
  split
  · rfl
  · simp only [h2, if_true]

theorem filePasses_placeholder_witness :
    copyrightYEAR <:+:
        (preprocess "go" "Copyright YEAR The Foo Authors\n\npackage main\n".toList).take
          "Copyright YEAR The Foo Authors\n".toList.length ∧
      filePasses "go" "Copyright YEAR The Foo Authors\n\npackage main\n".toList
        "Copyright YEAR The Foo Authors\n".toList = false :=
  ⟨(hasCopyrightYEAR_iff _).1 (by decide), filePasses_placeholder _ _ _
    ((hasCopyrightYEAR_iff _).1 (by decide))⟩

/-- C1 as stated fails: the content `Copyright YEAR The Foo Authors\n` is its
own year normalisation, equals the reference, and is rejected by the
placeholder check of lines 110-114. -/
theorem filePasses_exact_counterexample :
    ¬ (∀ (extension : String) (data ref : Bytes),
        replaceYear (preprocess extension data) = ref →
          filePasses extension data ref = true) := by
  intro h
  have := h "go" "Copyright YEAR The Foo Authors\n".toList
    "Copyright YEAR The Foo Authors\n".toList (by decide)
  revert this
  decide

/-- C1, amended: a file whose pre-processed content does not contain the
literal `Copyright YEAR` and equals the reference once its years are
normalised passes. -/
theorem filePasses_exact (extension : String) (data ref : Bytes)
    (hno : ¬ copyrightYEAR <:+: preprocess extension data)
    (h : replaceYear (preprocess extension data) = ref) :
    filePasses extension data ref = true := by
  have hlen : (preprocess extension data).length = ref.length := by
    rw [← h, replaceYear_length]
  have hno2 : hasCopyrightYEAR (preprocess extension data) = false := by
    rw [← Bool.not_eq_true, hasCopyrightYEAR_iff]; exact hno
  unfold filePasses headerMatches
  rw [if_neg (by omega), ← hlen, List.take_length]
  simp only [hno2, Bool.false_eq_true, if_false, h, hlen, decide_True]

theorem filePasses_exact_witness :
    (¬ copyrightYEAR <:+:
        preprocess "sh" "#!/bin/bash\n\nCopyright 2021 The Foo Authors\n".toList) ∧
      replaceYear (preprocess "sh" "#!/bin/bash\n\nCopyright 2021 The Foo Authors\n".toList)
        = "Copyright YEAR The Foo Authors\n".toList ∧
      filePasses "sh" "#!/bin/bash\n\nCopyright 2021 The Foo Authors\n".toList
        "Copyright YEAR The Foo Authors\n".toList = true :=
  ⟨by rw [← hasCopyrightYEAR_iff]; decide, by decide,
    filePasses_exact _ _ _ (by rw [← hasCopyrightYEAR_iff]; decide) (by decide)⟩

theorem deleteAll_skip_line (m : Bytes → Option Nat) (p x : Bytes) :
    ∀ b, deleteAll m b (p.length + 1) (p ++ '\n' :: x) = deleteAll m true 0 x := by
  induction p with
  | nil => intro b; simp [deleteAll]
  | cons c t ih =>
    intro b
    rw [List.cons_append, List.length_cons, deleteAll, ih]

theorem blankRunLen_zero (x : Bytes) (h1 : x.head? ≠ some '\n') (h2 : '\r' ∉ x) :
    blankRunLen x = 0 := by
  unfold blankRunLen
  split
  · simp at h2
  · simp at h1
  · rfl

theorem lineLen_append (s x : Bytes) (h : '\n' ∉ s) :
    lineLen (s ++ '\n' :: x) = some (s.length + 1) := by
  induction s with
  | nil => simp [lineLen]
  | cons c t ih =>
    simp only [List.mem_cons, not_or] at h
    have hc : c ≠ '\n' := fun e => h.1 e.symm
    simp [lineLen, hc, ih h.2]

theorem stripCR_append (x y : Bytes) : stripCR (x ++ y) = stripCR x ++ stripCR y := by
  simp [stripCR]

theorem not_mem_stripCR (x : Bytes) : '\r' ∉ stripCR x := by
  simp [stripCR]

theorem shebangAt_binbash (x : Bytes) (h1 : x.head? ≠ some '\n') (h2 : '\r' ∉ x) :
    shebangAt ("#!/bin/bash\n\n".toList ++ x) = some 13 := by
  have e : "#!/bin/bash\n\n".toList ++ x
      = shebangLit ++ ("/bin/bash".toList ++ '\n' :: ('\n' :: x)) := by
    simp [shebangLit]
  rw [e, shebangAt, if_pos (List.prefix_append _ _), List.drop_left,
    lineLen_append _ _ (by decide)]
  simp [shebangLit, List.drop_append, blankRunLen, blankRunLen_zero x h1 h2]

theorem stripShebang_binbash (x : Bytes) (h1 : x.head? ≠ some '\n') (h2 : '\r' ∉ x) :
    stripShebang ("#!/bin/bash\n\n".toList ++ x) = stripShebang x := by
  have hm := shebangAt_binbash x h1 h2
  have e : "#!/bin/bash\n\n".toList ++ x = '#' :: ("!/bin/bash".toList ++ '\n' :: ('\n' :: x)) := by
    simp
  have e2 : "!/bin/bash".toList ++ '\n' :: ('\n' :: x)
      = "!/bin/bash\n".toList ++ '\n' :: x := by simp
  rw [e] at hm
  rw [stripShebang, stripShebang, e, deleteAll, if_pos rfl, hm]
  simp only
  rw [e2]
  exact deleteAll_skip_line shebangAt "!/bin/bash\n".toList x _

theorem headerMatches_nil (data : Bytes) : headerMatches data [] = true := by
  simp [headerMatches, hasCopyrightYEAR, replaceYear, replaceYearAux]

theorem headerMatches_newline (y r : Bytes) (r0 : Char) (h0 : r0 ≠ '\n') :
    headerMatches ('\n' :: y) (r0 :: r) = false := by
  have hy : yearAt ('\n' :: List.take r.length y) = false := by
    simp [yearAt, copyrightLit]
  simp only [headerMatches, List.length_cons, List.take_succ_cons, replaceYear, replaceYearAux,
    hy]
  split
  · rfl
  · split
    · rfl
    · simp [Ne.symm h0]

theorem stripShebang_newline (t : Bytes) :
    stripShebang ('\n' :: t) = '\n' :: deleteAll shebangAt true 0 t := by
  have : shebangAt ('\n' :: t) = none := by simp [shebangAt, shebangLit]
  simp [stripShebang, deleteAll, this]

theorem preprocess_sh (data : Bytes) : preprocess "sh" data = stripShebang (stripCR data) := by
  simp [preprocess]

theorem preprocess_go (data : Bytes) :
    preprocess "go" data = stripBuildTags (stripCR data) := by
  simp [preprocess]

/-- C10, amended: for a shell file and a reference that does not begin with a
newline, a passing content still passes behind `#!/bin/bash`, blank line. -/
theorem filePasses_shebang (c ref : Bytes) (hr : ref.head? ≠ some '\n')
    (h : filePasses "sh" c ref = true) :
    filePasses "sh" ("#!/bin/bash\n\n".toList ++ c) ref = true := by
  cases ref with
  | nil => exact headerMatches_nil _
  | cons r0 r =>
    have h0 : r0 ≠ '\n' := by simpa using hr
    have hc : (stripCR c).head? ≠ some '\n' := by
      intro hh
      cases hs : stripCR c with
      | nil => simp [hs] at hh
      | cons a t =>
        rw [hs] at hh
        simp only [List.head?_cons, Option.some.injEq] at hh
        subst hh
        rw [filePasses, preprocess_sh, hs, stripShebang_newline,
          headerMatches_newline _ _ _ h0] at h
        exact absurd h (by decide)
    have e : stripCR "#!/bin/bash\n\n".toList = "#!/bin/bash\n\n".toList := by decide
    rw [filePasses, preprocess_sh, stripCR_append, e,
      stripShebang_binbash _ hc (not_mem_stripCR c), ← preprocess_sh]
    exact h

theorem filePasses_shebang_witness :
    "# Copyright YEAR The Foo Authors\n".toList.head? ≠ some '\n' ∧
      filePasses "sh" "# Copyright 2021 The Foo Authors\n\necho hi\n".toList
        "# Copyright YEAR The Foo Authors\n".toList = true ∧
      filePasses "sh"
        ("#!/bin/bash\n\n".toList ++ "# Copyright 2021 The Foo Authors\n\necho hi\n".toList)
        "# Copyright YEAR The Foo Authors\n".toList = true :=
  ⟨by decide, by decide, filePasses_shebang _ _ (by decide) (by decide)⟩

/-- C10 as stated fails: against the reference `\n# Copyright YEAR\n` the
content `\n# Copyright 2021\n` passes, but behind `#!/bin/bash\n\n` its
leading newline is deleted with the shebang line and the file fails. -/
theorem filePasses_shebang_counterexample :
    ¬ (∀ c ref : Bytes, filePasses "sh" c ref = true →
        filePasses "sh" ("#!/bin/bash\n\n".toList ++ c) ref = true) := by
  intro h
  have := h "\n# Copyright 2021\n".toList "\n# Copyright YEAR\n".toList (by decide)
  revert this
  decide


theorem buildLineLen_line (s rest : Bytes) (h : '\n' ∉ s) :
    buildLineLen (buildTagLine s ++ rest) = some (buildTagLine s).length := by
  have e : buildTagLine s ++ rest = buildLit ++ (s ++ '\n' :: rest) := by
    simp [buildTagLine]
  rw [e, buildLineLen, if_pos (List.prefix_append _ _), List.drop_left, lineLen_append _ _ h]
  simp [buildTagLine]
  omega

theorem buildBlockLen_newline (f : Nat) (x : Bytes) : buildBlockLen f ('\n' :: x) = none := by
  cases f with
  | zero => rfl
  | succ f =>
    have : buildLineLen ('\n' :: x) = none := by simp [buildLineLen, buildLit]
    simp [buildBlockLen, this]

theorem buildBlockLen_block (x : Bytes) (ls : List Bytes) :
    ∀ f, ls ≠ [] → ls.length ≤ f → (∀ s ∈ ls, '\n' ∉ s) →
      buildBlockLen f (buildTagBlock ls ++ '\n' :: x) = some ((buildTagBlock ls).length + 1) := by
  induction ls with
  | nil => intro f h; exact absurd rfl h
  | cons s ls ih =>
    intro f _ hf hs
    cases f with
    | zero => simp at hf
    | succ f =>
      have h1 : '\n' ∉ s := hs s (List.mem_cons_self _ _)
      rw [buildTagBlock, List.append_assoc, buildBlockLen, buildLineLen_line _ _ h1]
      simp only [List.drop_left]
      by_cases hl : ls = []
      · subst hl
        simp [buildTagBlock, buildBlockLen_newline, blankLen]
      · rw [ih f hl (by simpa using hf) (fun t ht => hs t (List.mem_cons_of_mem _ ht))]
        simp only [List.length_append]
        exact congrArg some (by omega)

theorem length_le_buildTagBlock (ls : List Bytes) : ls.length ≤ (buildTagBlock ls).length := by
  induction ls with
  | nil => simp
  | cons s ls ih =>
    simp only [buildTagBlock, buildTagLine, List.length_cons, List.length_append]
    omega

theorem buildTagBlock_head (ls : List Bytes) (hne : ls ≠ []) :
    ∃ p, buildTagBlock ls = '/' :: p := by
  cases ls with
  | nil => exact absurd rfl hne
  | cons s ls => exact ⟨_, by simp [buildTagBlock, buildTagLine, buildLit]; rfl⟩

theorem stripBuildTags_block (x : Bytes) (ls : List Bytes) (hne : ls ≠ [])
    (hs : ∀ s ∈ ls, '\n' ∉ s) :
    stripBuildTags (buildTagBlock ls ++ '\n' :: x) = stripBuildTags x := by
  have hm : buildTagsAt (buildTagBlock ls ++ '\n' :: x) = some ((buildTagBlock ls).length + 1) :=
    buildBlockLen_block x ls _ hne (by
      have := length_le_buildTagBlock ls
      simp only [List.length_append]
      omega) hs
  obtain ⟨p, hp⟩ := buildTagBlock_head ls hne
  rw [hp, List.cons_append] at hm
  rw [stripBuildTags, stripBuildTags, hp, List.cons_append, deleteAll, if_pos rfl, hm]
  simp only [List.length_cons]
  exact deleteAll_skip_line buildTagsAt p x _

theorem stripCR_buildTagBlock (ls : List Bytes) :
    stripCR (buildTagBlock ls) = buildTagBlock (ls.map stripCR) := by
  induction ls with
  | nil => rfl
  | cons s ls ih =>
    have e : stripCR buildLit = buildLit := by decide
    have e2 : stripCR ['\n'] = ['\n'] := by decide
    simp only [buildTagBlock, buildTagLine, stripCR_append, ih, e, e2, List.map_cons]

/-- C7: for a Go file a leading block of build-tag lines closed by a blank
line is transparent: the file passes exactly when what follows the blank line
passes. -/
theorem filePasses_buildTags (ref c : Bytes) (ls : List Bytes) (hne : ls ≠ [])
    (hs : ∀ s ∈ ls, '\n' ∉ s) :
    filePasses "go" (buildTagBlock ls ++ '\n' :: c) ref = filePasses "go" c ref := by
  have e2 : stripCR ['\n'] = ['\n'] := by decide
  have hs2 : ∀ s ∈ ls.map stripCR, '\n' ∉ s := by
    intro s hmem
    obtain ⟨t, ht, rfl⟩ := List.mem_map.1 hmem
    intro hin
    exact hs t ht (List.mem_of_mem_filter hin)
  have e3 : '\n' :: c = ['\n'] ++ c := rfl
  rw [filePasses, filePasses, preprocess_go, preprocess_go, e3, stripCR_append, stripCR_append,
    e2, stripCR_buildTagBlock, List.singleton_append,
    stripBuildTags_block _ _ (by simpa using hne) hs2]

theorem filePasses_buildTags_witness :
    ["".toList, " linux,amd64".toList] ≠ [] ∧
      (∀ s ∈ ["".toList, " linux,amd64".toList], '\n' ∉ s) ∧
      filePasses "go"
        (buildTagBlock ["".toList, " linux,amd64".toList] ++
          '\n' :: "Copyright 2021 The Foo Authors\n\npackage main\n".toList)
        "Copyright YEAR The Foo Authors\n".toList = true :=
  ⟨by decide, by decide,
    (filePasses_buildTags _ _ _ (by decide) (by decide)).trans (by decide)⟩

/-- C9 fails on the code: the patterns of lines 91 and 99 carry the flag `(?m)`
and are applied with `ReplaceAll`, so a build-tag block or a shebang line at
the start of any line is deleted, not only one at the top of the file.  The Go
content below does not begin with a build-tag line and the shell content does
not begin with `#!`, yet both lose bytes further down; a header interrupted by
a shebang line then passes. -/
theorem preprocess_not_only_top :
    preprocess "go" "package main\n// +build linux\n\nfunc main() {}\n".toList
        = "package main\nfunc main() {}\n".toList ∧
      stripCR "package main\n// +build linux\n\nfunc main() {}\n".toList
        = "package main\n// +build linux\n\nfunc main() {}\n".toList ∧
      preprocess "sh" "echo a\n#!/bin/sh\n\necho b\n".toList = "echo a\necho b\n".toList ∧
      stripCR "echo a\n#!/bin/sh\n\necho b\n".toList = "echo a\n#!/bin/sh\n\necho b\n".toList ∧
      filePasses "sh" "# Copyright 2021 The Foo\n#!/bin/sh\n# Authors\n".toList
        "# Copyright YEAR The Foo\n# Authors\n".toList = true := by
  decide


theorem blankLen_none (x : Bytes) (h1 : x.head? ≠ some '\n') (h2 : '\r' ∉ x) :
    blankLen x = none := by
  unfold blankLen
  split
  · simp at h2
  · simp at h1
  · rfl

theorem buildLineLen_starts {x : Bytes} {n : Nat} (h : buildLineLen x = some n) :
    buildLit <+: x := by
  unfold buildLineLen at h
  split at h
  · assumption
  · exact absurd h (by simp)

theorem buildBlockLen_starts {f : Nat} {x : Bytes} {n : Nat} (h : buildBlockLen f x = some n) :
    buildLit <+: x := by
  cases f with
  | zero => exact absurd h (by simp [buildBlockLen])
  | succ f =>
    rw [buildBlockLen] at h
    cases hl : buildLineLen x with
    | none => rw [hl] at h; exact absurd h (by simp)
    | some k => exact buildLineLen_starts hl

theorem buildBlockLen_open (x : Bytes) (hx : ¬ buildLit <+: x) (hb : blankLen x = none)
    (ls : List Bytes) (hs : ∀ s ∈ ls, '\n' ∉ s) :
    ∀ f, buildBlockLen f (buildTagBlock ls ++ x) = none := by
  induction ls with
  | nil =>
    intro f
    cases h : buildBlockLen f (buildTagBlock [] ++ x) with
    | none => rfl
    | some n => exact absurd (buildBlockLen_starts h) hx
  | cons s ls ih =>
    intro f
    cases f with
    | zero => rfl
    | succ f =>
      have h1 : '\n' ∉ s := hs s (List.mem_cons_self _ _)
      have hs' : ∀ t ∈ ls, '\n' ∉ t := fun t ht => hs t (List.mem_cons_of_mem _ ht)
      rw [buildTagBlock, List.append_assoc, buildBlockLen, buildLineLen_line _ _ h1]
      simp only [List.drop_left, ih hs' f]
      cases ls with
      | nil => simpa [buildTagBlock] using hb
      | cons t ls => simp [buildTagBlock, buildTagLine, buildLit, blankLen]

/-- Bytes that hold no newline and are not looked at as the start of a line
are copied. -/
theorem deleteAll_mid (m : Bytes → Option Nat) (p x : Bytes) (hp : '\n' ∉ p) :
    deleteAll m false 0 (p ++ x) = p ++ deleteAll m false 0 x := by
  induction p with
  | nil => rfl
  | cons c t ih =>
    simp only [List.mem_cons, not_or] at hp
    have hc : c ≠ '\n' := fun e => hp.1 e.symm
    simp [deleteAll, hc, ih hp.2]

theorem stripBuildTags_open (x : Bytes) (hx : ¬ buildLit <+: x) (hb : blankLen x = none)
    (ls : List Bytes) (hne : ls ≠ []) (hs : ∀ s ∈ ls, '\n' ∉ s) :
    buildLit <+: stripBuildTags (buildTagBlock ls ++ x) := by
  have hm := buildBlockLen_open x hx hb ls hs (buildTagBlock ls ++ x).length
  cases ls with
  | nil => exact absurd rfl hne
  | cons s ls =>
    have e : buildTagBlock (s :: ls) ++ x
        = '/' :: ("/ +build".toList ++ (s ++ '\n' :: (buildTagBlock ls ++ x))) := by
      simp [buildTagBlock, buildTagLine, buildLit]
    rw [e] at hm
    rw [stripBuildTags, e, deleteAll, if_pos rfl]
    change buildBlockLen _ _ = none at hm
    rw [buildTagsAt, hm]
    simp only
    rw [show decide ('/' = '\n') = false from by decide,
      deleteAll_mid _ _ _ (by decide)]
    exact ⟨_, rfl⟩


theorem yearAt_head {c : Char} {t : Bytes} (h : yearAt (c :: t) = true) : c = 'C' := by
  unfold yearAt at h
  simp only [Bool.and_eq_true, decide_eq_true_eq] at h
  have := h.1
  rw [copyrightLit] at this
  exact ((List.cons_prefix_cons).1 this).1.symm

theorem replaceYearAux_lit (lit y : Bytes) (h : 'C' ∉ lit) :
    replaceYearAux 0 (lit ++ y) = lit ++ replaceYearAux 0 y := by
  induction lit with
  | nil => rfl
  | cons c t ih =>
    simp only [List.mem_cons, not_or] at h
    have hy : yearAt (c :: (t ++ y)) = false := by
      cases hh : yearAt (c :: (t ++ y)) with
      | false => rfl
      | true => exact absurd (yearAt_head hh).symm h.1
    simp [replaceYearAux, hy, ih h.2]

theorem prefix_of_replaceYearAux (lit : Bytes) (h : 'C' ∉ lit) :
    ∀ xs r, replaceYearAux 0 xs = lit ++ r → lit <+: xs := by
  induction lit with
  | nil => intro xs r _; exact List.nil_prefix
  | cons c l ih =>
    intro xs r hx
    simp only [List.mem_cons, not_or] at h
    cases xs with
    | nil => simp [replaceYearAux] at hx
    | cons a t =>
      rw [replaceYearAux] at hx
      split at hx
      · rw [copyrightYEAR] at hx
        simp only [String.toList, List.cons_append, List.cons.injEq] at hx
        exact absurd hx.1 h.1
      · simp only [List.cons_append, List.cons.injEq] at hx
        rw [hx.1]
        exact (List.cons_prefix_cons).2 ⟨rfl, ih h.2 t r hx.2⟩

theorem headerMatches_spec {data ref : Bytes} (h : headerMatches data ref = true) :
    ref.length ≤ data.length ∧ replaceYear (data.take ref.length) = ref := by
  unfold headerMatches at h
  split at h
  · exact absurd h (by decide)
  · simp only at h
    split at h
    · exact absurd h (by decide)
    · exact ⟨by omega, by simpa using h⟩

theorem headerMatches_lit_ref (lit : Bytes) (hC : 'C' ∉ lit) {data ref : Bytes}
    (h : headerMatches data ref = true) (hp : lit <+: data) (hl : lit.length ≤ ref.length) :
    lit <+: ref := by
  obtain ⟨_, h2⟩ := headerMatches_spec h
  obtain ⟨y, rfl⟩ := hp
  rw [List.take_append_eq_append_take, List.take_of_length_le hl, replaceYear,
    replaceYearAux_lit _ _ hC] at h2
  exact ⟨_, h2⟩

theorem headerMatches_lit_data (lit : Bytes) (hC : 'C' ∉ lit) {data ref : Bytes}
    (h : headerMatches data ref = true) (hp : lit <+: ref) : lit <+: data := by
  obtain ⟨_, h2⟩ := headerMatches_spec h
  obtain ⟨r, hr⟩ := hp
  rw [← hr, replaceYear] at h2
  exact (prefix_of_replaceYearAux lit hC _ _ h2).trans (List.take_prefix _ _)

theorem prefix_of_deleteAll_mid (m : Bytes → Option Nat) (lit : Bytes) (h : '\n' ∉ lit) :
    ∀ t, lit <+: deleteAll m false 0 t → lit <+: t := by
  induction lit with
  | nil => intro t _; exact List.nil_prefix
  | cons a l ih =>
    intro t ht
    simp only [List.mem_cons, not_or] at h
    cases t with
    | nil => simp [deleteAll] at ht
    | cons d t =>
      simp only [deleteAll, Bool.false_eq_true, if_false] at ht
      obtain ⟨rfl, h3⟩ := (List.cons_prefix_cons).1 ht
      have hd : decide (a = '\n') = false := by simpa using (fun e => h.1 (Eq.symm e))
      rw [hd] at h3
      exact (List.cons_prefix_cons).2 ⟨rfl, ih h.2 t h3⟩

theorem prefix_of_stripBuildTags (x : Bytes) (h : buildLit <+: stripBuildTags x) :
    buildLit <+: x := by
  cases x with
  | nil => exact absurd h (by decide)
  | cons c t =>
    rw [stripBuildTags, deleteAll, if_pos rfl] at h
    split at h
    · rename_i n hn
      exact buildBlockLen_starts hn
    · rw [buildLit] at h ⊢
      obtain ⟨rfl, h3⟩ := (List.cons_prefix_cons).1 h
      rw [show decide ('/' = '\n') = false from by decide] at h3
      exact (List.cons_prefix_cons).2 ⟨rfl, prefix_of_deleteAll_mid _ _ (by decide) t h3⟩


/-- C8, amended: for a Go file and a reference of at least nine bytes, a
passing content that, carriage returns apart, begins neither with `// +build`
nor with a newline fails once a block of build-tag lines is put right before
it. -/
theorem filePasses_block_unseparated (ref c : Bytes) (ls : List Bytes) (hne : ls ≠ [])
    (hs : ∀ s ∈ ls, '\n' ∉ s) (hr : buildLit.length ≤ ref.length)
    (hc1 : ¬ buildLit <+: stripCR c) (hc2 : (stripCR c).head? ≠ some '\n')
    (h : filePasses "go" c ref = true) :
    filePasses "go" (buildTagBlock ls ++ c) ref = false := by
  have hs2 : ∀ s ∈ ls.map stripCR, '\n' ∉ s := by
    intro s hmem
    obtain ⟨t, ht, rfl⟩ := List.mem_map.1 hmem
    intro hin
    exact hs t ht (List.mem_of_mem_filter hin)
  cases hf : filePasses "go" (buildTagBlock ls ++ c) ref with
  | false => rfl
  | true =>
    exfalso
    rw [filePasses, preprocess_go] at h hf
    rw [stripCR_append, stripCR_buildTagBlock] at hf
    have h1 := stripBuildTags_open (stripCR c) hc1
      (blankLen_none _ hc2 (not_mem_stripCR c)) (ls.map stripCR) (by simpa using hne) hs2
    have h2 := headerMatches_lit_ref buildLit (by decide) hf h1 hr
    have h3 := headerMatches_lit_data buildLit (by decide) h h2
    exact hc1 (prefix_of_stripBuildTags _ h3)

theorem filePasses_block_unseparated_witness :
    [" linux".toList] ≠ [] ∧ (∀ s ∈ [" linux".toList], '\n' ∉ s) ∧
      buildLit.length ≤ "/*\nCopyright YEAR The Foo Authors\n*/\n".toList.length ∧
      (¬ buildLit <+: stripCR "/*\nCopyright 2021 The Foo Authors\n*/\n\npackage main\n".toList) ∧
      (stripCR "/*\nCopyright 2021 The Foo Authors\n*/\n\npackage main\n".toList).head?
        ≠ some '\n' ∧
      filePasses "go" "/*\nCopyright 2021 The Foo Authors\n*/\n\npackage main\n".toList
        "/*\nCopyright YEAR The Foo Authors\n*/\n".toList = true ∧
      filePasses "go"
        (buildTagBlock [" linux".toList] ++
          "/*\nCopyright 2021 The Foo Authors\n*/\n\npackage main\n".toList)
        "/*\nCopyright YEAR The Foo Authors\n*/\n".toList = false :=
  ⟨by decide, by decide, by decide, by decide, by decide, by decide,
    filePasses_block_unseparated _ _ _ (by decide) (by decide) (by decide) (by decide)
      (by decide) (by decide)⟩

/-- C8 as stated fails.  A content that itself begins with a build-tag block
and a blank line passes, and still passes behind a further build-tag line: the
two blocks are deleted as one.  A content that begins with blank lines closes
the block put before it.  A short reference such as `/` is matched by the
start of the block itself. -/
theorem filePasses_block_unseparated_counterexample :
    (filePasses "go" "// +build linux\n\nCopyright 2021 The Foo Authors\n".toList
        "Copyright YEAR The Foo Authors\n".toList = true ∧
      filePasses "go"
        (buildTagBlock [" darwin".toList] ++
          "// +build linux\n\nCopyright 2021 The Foo Authors\n".toList)
        "Copyright YEAR The Foo Authors\n".toList = true) ∧
    (filePasses "go" "\n\n".toList "\n".toList = true ∧
      filePasses "go" (buildTagBlock [" darwin".toList] ++ "\n\n".toList) "\n".toList = true) ∧
    (filePasses "go" "/* x */\n".toList "/".toList = true ∧
      filePasses "go" (buildTagBlock [" darwin".toList] ++ "/* x */\n".toList) "/".toList
        = true) := by
  decide

theorem deleteAll_skip_all (m : Bytes → Option Nat) (t : Bytes) :
    ∀ b k, t.length ≤ k → deleteAll m b k t = [] := by
  induction t with
  | nil => intro b k _; cases k <;> rfl
  | cons c t ih =>
    intro b k hk
    cases k with
    | zero => simp at hk
    | succ k => rw [deleteAll]; exact ih _ k (by simpa using hk)

/-- Appending bytes to a text leaves the result of `deleteAll` on the text in
place, provided no match that starts at the start of a line of the text
changes other than by growing past the end of the text. -/
theorem deleteAll_append (m : Bytes → Option Nat) (d e : Bytes)
    (hnone : ∀ u y, d = u ++ y → y ≠ [] → (u = [] ∨ ∃ w, u = w ++ ['\n']) →
      m y = none → m (y ++ e) = none)
    (hsome : ∀ u y n, d = u ++ y → y ≠ [] → (u = [] ∨ ∃ w, u = w ++ ['\n']) →
      m y = some n → n ≤ y.length ∧ ∃ j, m (y ++ e) = some (n + j) ∧ (j = 0 ∨ n = y.length)) :
    ∀ x u b k, d = u ++ x → (b = true → (u = [] ∨ ∃ w, u = w ++ ['\n'])) → k ≤ x.length →
      ∃ z, deleteAll m b k (x ++ e) = deleteAll m b k x ++ z := by
  intro x
  induction x with
  | nil => intro u b k _ _ _; exact ⟨deleteAll m b k ([] ++ e), by simp [deleteAll]⟩
  | cons c t ih =>
    intro u b k hd hb hk
    have hd' : d = (u ++ [c]) ++ t := by simpa using hd
    have hb' : decide (c = '\n') = true → (u ++ [c] = [] ∨ ∃ w, u ++ [c] = w ++ ['\n']) := by
      intro h
      exact Or.inr ⟨u, by simp only [decide_eq_true_eq] at h; rw [h]⟩
    cases k with
    | succ k =>
      rw [List.cons_append, deleteAll, deleteAll]
      exact ih _ _ k hd' hb' (by simpa using hk)
    | zero =>
      rw [List.cons_append, deleteAll, deleteAll]
      obtain ⟨z, hz⟩ := ih _ _ 0 hd' hb' (Nat.zero_le _)
      cases b with
      | false => exact ⟨z, by simp [hz]⟩
      | true =>
        simp only [if_true]
        cases hm : m (c :: t) with
        | none =>
          have := hnone u (c :: t) hd (by simp) (hb rfl) hm
          rw [List.cons_append] at this
          rw [this]
          exact ⟨z, by simp [hz]⟩
        | some n =>
          obtain ⟨hn, j, hj, hcase⟩ := hsome u (c :: t) n hd (by simp) (hb rfl) hm
          rw [List.cons_append] at hj
          rw [hj]
          cases n with
          | zero =>
            have hj0 : j = 0 := by
              rcases hcase with h | h
              · exact h
              · simp at h
            subst hj0
            exact ⟨z, by simp [hz]⟩
          | succ n =>
            simp only [List.length_cons] at hn hcase
            rcases hcase with h | h
            · subst h
              exact ih _ _ n hd' hb' (by omega)
            · have hnt : t.length ≤ n := by omega
              rw [Nat.add_right_comm]
              simp only [deleteAll_skip_all m t _ n hnt, List.nil_append]
              exact ⟨_, rfl⟩

theorem headerMatches_append {data ref : Bytes} (z : Bytes)
    (h : headerMatches data ref = true) : headerMatches (data ++ z) ref = true := by
  obtain ⟨hl, _⟩ := headerMatches_spec h
  unfold headerMatches at h ⊢
  rw [if_neg (by omega)] at h
  rw [if_neg (by simp only [List.length_append]; omega), List.take_append_of_le_length hl]
  exact h


theorem lineLen_some {r : Bytes} {k : Nat} (h : lineLen r = some k) :
    ∃ s rest, r = s ++ '\n' :: rest ∧ '\n' ∉ s ∧ k = s.length + 1 := by
  induction r generalizing k with
  | nil => simp [lineLen] at h
  | cons c t ih =>
    rw [lineLen] at h
    split at h
    · rename_i hc
      subst hc
      exact ⟨[], t, rfl, by simp, by simpa using h.symm⟩
    · rename_i hc
      cases ht : lineLen t with
      | none => simp [ht] at h
      | some j =>
        obtain ⟨s, rest, e1, e2, e3⟩ := ih ht
        simp only [ht, Option.map_some', Option.some.injEq] at h
        exact ⟨c :: s, rest, by simp [e1], by simpa [e2] using Ne.symm hc, by
          simp only [List.length_cons]; omega⟩

theorem lineLen_none {r : Bytes} (h : lineLen r = none) : '\n' ∉ r := by
  induction r with
  | nil => simp
  | cons c t ih =>
    rw [lineLen] at h
    split at h
    · simp at h
    · rename_i hc
      simp only [Option.map_eq_none'] at h
      simpa [ih h] using Ne.symm hc

theorem buildLineLen_some {y : Bytes} {n : Nat} (h : buildLineLen y = some n) :
    ∃ s rest, y = buildTagLine s ++ rest ∧ '\n' ∉ s ∧ n = (buildTagLine s).length := by
  unfold buildLineLen at h
  split at h
  · rename_i hp
    obtain ⟨r, rfl⟩ := hp
    rw [List.drop_left] at h
    cases hl : lineLen r with
    | none => simp [hl] at h
    | some k =>
      obtain ⟨s, rest, e1, e2, e3⟩ := lineLen_some hl
      simp only [hl, Option.map_some', Option.some.injEq] at h
      refine ⟨s, rest, by simp [buildTagLine, e1], e2, ?_⟩
      simp only [buildTagLine, List.length_append, List.length_singleton]
      omega
  · simp at h

theorem buildLineLen_append_some {y : Bytes} {n : Nat} (e : Bytes)
    (h : buildLineLen y = some n) : buildLineLen (y ++ e) = some n := by
  obtain ⟨s, rest, rfl, hs, rfl⟩ := buildLineLen_some h
  rw [List.append_assoc, buildLineLen_line _ _ hs]

theorem blankLen_append_some {r : Bytes} {j : Nat} (e : Bytes) (h : blankLen r = some j) :
    blankLen (r ++ e) = some j ∧ buildLineLen (r ++ e) = none ∧ j ≤ r.length := by
  unfold blankLen at h
  split at h
  · simp only [Option.some.injEq] at h
    subst h
    simp [blankLen, buildLineLen, buildLit]
  · simp only [Option.some.injEq] at h
    subst h
    simp [blankLen, buildLineLen, buildLit]
  · simp at h

/-- A match of the build-tag pattern lies within the text and is not changed
by bytes appended to the text, nor by a larger bound. -/
theorem buildBlockLen_append_some (e : Bytes) :
    ∀ f y n, buildBlockLen f y = some n →
      n ≤ y.length ∧ ∀ f', f ≤ f' → buildBlockLen f' (y ++ e) = some n := by
  intro f
  induction f with
  | zero => intro y n h; simp [buildBlockLen] at h
  | succ f ih =>
    intro y n h
    rw [buildBlockLen] at h
    cases hl : buildLineLen y with
    | none => simp [hl] at h
    | some k =>
      obtain ⟨s, rest, rfl, hs, rfl⟩ := buildLineLen_some hl
      simp only [hl, List.drop_left] at h
      cases hb : buildBlockLen f rest with
      | some m =>
        simp only [hb, Option.some.injEq] at h
        obtain ⟨hm, hm2⟩ := ih rest m hb
        refine ⟨by simp only [List.length_append]; omega, ?_⟩
        intro f' hf'
        obtain ⟨g, rfl⟩ : ∃ g, f' = g + 1 := ⟨f' - 1, by omega⟩
        rw [buildBlockLen, List.append_assoc, buildLineLen_line _ _ hs]
        simp only [List.drop_left, hm2 g (by omega), h]
      | none =>
        simp only [hb] at h
        cases hj : blankLen rest with
        | none => simp [hj] at h
        | some j =>
          simp only [hj, Option.map_some', Option.some.injEq] at h
          obtain ⟨h1, h2, h3⟩ := blankLen_append_some e hj
          refine ⟨by simp only [List.length_append]; omega, ?_⟩
          intro f' hf'
          obtain ⟨g, rfl⟩ : ∃ g, f' = g + 1 := ⟨f' - 1, by omega⟩
          rw [buildBlockLen, List.append_assoc, buildLineLen_line _ _ hs]
          simp only [List.drop_left]
          have hnone : buildBlockLen g (rest ++ e) = none := by
            cases g with
            | zero => rfl
            | succ g => rw [buildBlockLen, h2]
          simp only [hnone, h1, Option.map_some', h]


theorem lastLineNoBuildTag_suffix {d u y : Bytes} (hd : d = u ++ y) (hy : y ≠ [])
    (hu : u = [] ∨ ∃ w, u = w ++ ['\n']) (h : LastLineNoBuildTag d) : LastLineNoBuildTag y := by
  obtain ⟨v, l, hv, hvl, hl, hp⟩ := h
  rw [hd, List.append_assoc] at hv
  rcases List.append_eq_append_iff.1 hv with ⟨a, rfl, rfl⟩ | ⟨c, rfl, hc⟩
  · refine ⟨a, l, by simp, ?_, hl, hp⟩
    rcases hvl with h0 | ⟨w, hw⟩
    · left
      exact (List.append_eq_nil.1 h0).2
    · by_cases ha : a = []
      · exact Or.inl ha
      · right
        obtain ⟨a', c', rfl⟩ : ∃ a' c', a = a' ++ [c'] :=
          ⟨a.dropLast, a.getLast ha, (List.dropLast_append_getLast ha).symm⟩
        rw [← List.append_assoc] at hw
        have := List.append_inj' hw rfl
        exact ⟨a', by rw [this.2]⟩
  · by_cases hc0 : c = []
    · subst hc0
      simp only [List.nil_append] at hc
      exact ⟨[], l, by simp [hc], Or.inl rfl, hl, hp⟩
    · exfalso
      rcases hu with h0 | ⟨w, hw⟩
      · exact hc0 (List.append_eq_nil.1 h0).2
      · obtain ⟨c1, c2, rfl⟩ : ∃ c1 c2, c = c1 ++ [c2] :=
          ⟨c.dropLast, c.getLast hc0, (List.dropLast_append_getLast hc0).symm⟩
        rw [← List.append_assoc] at hw
        have h2 := (List.append_inj' hw rfl).2
        simp only [List.cons.injEq, and_true] at h2
        subst h2
        obtain ⟨y1, y2, rfl⟩ : ∃ y1 y2, y = y1 ++ [y2] :=
          ⟨y.dropLast, y.getLast hy, (List.dropLast_append_getLast hy).symm⟩
        rw [← List.append_assoc] at hc
        have h3 := (List.append_inj' hc rfl).1
        exact hl (by rw [h3]; simp)


theorem buildLineLen_append_none {y : Bytes} (e : Bytes) (hy : '\n' ∈ y)
    (h : buildLineLen y = none) : buildLineLen (y ++ e) = none := by
  cases hn : buildLineLen (y ++ e) with
  | none => rfl
  | some n =>
    exfalso
    have hp : buildLit <+: y := by
      rcases List.prefix_or_prefix_of_prefix (buildLineLen_starts hn) (List.prefix_append y e)
        with h1 | h1
      · exact h1
      · exact absurd (h1.subset hy) (by decide)
    obtain ⟨r, rfl⟩ := hp
    rw [buildLineLen, if_pos (List.prefix_append _ _), List.drop_left] at h
    simp only [Option.map_eq_none'] at h
    have h2 := lineLen_none h
    rcases List.mem_append.1 hy with h3 | h3
    · exact absurd h3 (by decide)
    · exact h2 h3

theorem blankLen_cons_cons (c c2 : Char) (t : Bytes) :
    blankLen (c :: c2 :: t)
      = if c = '\r' ∧ c2 = '\n' then some 2 else if c = '\n' then some 1 else none := by
  unfold blankLen
  split
  · rename_i heq
    simp only [List.cons.injEq] at heq
    simp [heq.1, heq.2.1]
  · rename_i heq
    simp only [List.cons.injEq] at heq
    simp [heq.1]
  · rename_i h1 h2
    have e1 : ¬ (c = '\r' ∧ c2 = '\n') := fun h => h1 t (by rw [h.1, h.2])
    have e2 : ¬ c = '\n' := fun h => h2 (c2 :: t) (by rw [h])
    simp [e1, e2]

theorem blankLen_append_none {r : Bytes} (e : Bytes) (h : blankLen r = none)
    (hr : ∃ w, r = w ++ ['\n']) : blankLen (r ++ e) = none := by
  obtain ⟨w, rfl⟩ := hr
  cases w with
  | nil => simp [blankLen] at h
  | cons c w =>
    cases w with
    | nil =>
      simp only [List.cons_append, List.nil_append] at h ⊢
      rw [blankLen_cons_cons] at h
      simp only [and_true] at h
      by_cases hc : c = '\r'
      · simp [hc] at h
      · by_cases hc2 : c = '\n'
        · simp [hc2] at h
        · rw [blankLen_cons_cons]
          simp [hc, hc2]
    | cons c2 w =>
      simp only [List.cons_append] at h ⊢
      rw [blankLen_cons_cons] at h ⊢
      exact h


theorem lastLineNoBuildTag_mem {y : Bytes} (h : LastLineNoBuildTag y) : '\n' ∈ y := by
  obtain ⟨v, l, rfl, _⟩ := h
  simp

theorem lastLineNoBuildTag_ends {y : Bytes} (h : LastLineNoBuildTag y) :
    ∃ w, y = w ++ ['\n'] := by
  obtain ⟨v, l, rfl, _⟩ := h
  exact ⟨v ++ l, rfl⟩

theorem lastLineNoBuildTag_line (s : Bytes) (hs : '\n' ∉ s) :
    ¬ LastLineNoBuildTag (buildTagLine s) := by
  rintro ⟨v, l, hv, hvl, hl, hp⟩
  rw [buildTagLine] at hv
  have h1 := (List.append_inj' hv rfl).1
  rcases hvl with rfl | ⟨w, rfl⟩
  · simp only [List.nil_append] at h1
    exact hp ⟨s, h1⟩
  · have : '\n' ∈ buildLit ++ s := by rw [h1]; simp
    rcases List.mem_append.1 this with h3 | h3
    · exact absurd h3 (by decide)
    · exact hs h3

/-- No match of the build-tag pattern appears at the start of a text that ends
with a complete line other than a build-tag line when bytes are appended. -/
theorem buildBlockLen_append_none (e : Bytes) :
    ∀ f' f y, LastLineNoBuildTag y → y.length ≤ f → buildBlockLen f y = none →
      buildBlockLen f' (y ++ e) = none := by
  intro f'
  induction f' with
  | zero => intro f y _ _ _; rfl
  | succ g ih =>
    intro f y hy hf h
    rw [buildBlockLen]
    cases hl : buildLineLen y with
    | none => rw [buildLineLen_append_none e (lastLineNoBuildTag_mem hy) hl]
    | some k =>
      obtain ⟨s, rest, rfl, hs, rfl⟩ := buildLineLen_some hl
      have hrest : rest ≠ [] := by
        rintro rfl
        rw [List.append_nil] at hy
        exact lastLineNoBuildTag_line s hs hy
      have hy2 : LastLineNoBuildTag rest :=
        lastLineNoBuildTag_suffix rfl hrest (Or.inr ⟨buildLit ++ s, rfl⟩) hy
      obtain ⟨f0, rfl⟩ : ∃ f0, f = f0 + 1 := by
        cases f with
        | zero => simp [buildTagLine] at hf
        | succ f0 => exact ⟨f0, rfl⟩
      rw [buildBlockLen, hl] at h
      simp only [List.drop_left] at h
      cases hb : buildBlockLen f0 rest with
      | some m => simp [hb] at h
      | none =>
        simp only [hb, Option.map_eq_none'] at h
        rw [List.append_assoc, buildLineLen_line _ _ hs]
        simp only [List.drop_left]
        have h1 : 1 ≤ (buildTagLine s).length := by
          simp only [buildTagLine, List.length_append, List.length_singleton]
          omega
        rw [ih f0 rest hy2 (by simp only [List.length_append] at hf; omega) hb,
          blankLen_append_none e h (lastLineNoBuildTag_ends hy2)]
        rfl

theorem stripBuildTags_append (d e : Bytes) (h : LastLineNoBuildTag d) :
    ∃ z, stripBuildTags (d ++ e) = stripBuildTags d ++ z := by
  refine deleteAll_append buildTagsAt d e ?_ ?_ d [] true 0 rfl (fun _ => Or.inl rfl)
    (Nat.zero_le _)
  · intro u y hd hy hu hm
    exact buildBlockLen_append_none e _ _ y (lastLineNoBuildTag_suffix hd hy hu h)
      (Nat.le_refl _) hm
  · intro u y n _ _ _ hm
    obtain ⟨h1, h2⟩ := buildBlockLen_append_some e _ y n hm
    exact ⟨h1, 0, h2 _ (by simp), Or.inl rfl⟩


theorem blankRunLen_newline (x : Bytes) : blankRunLen ('\n' :: x) = 1 + blankRunLen x := by
  rw [blankRunLen]

theorem blankRunLen_other (c : Char) (x : Bytes) (h1 : c ≠ '\n') (h2 : c ≠ '\r') :
    blankRunLen (c :: x) = 0 := by
  unfold blankRunLen
  split
  · rename_i heq; simp only [List.cons.injEq] at heq; exact absurd heq.1 h2
  · rename_i heq; simp only [List.cons.injEq] at heq; exact absurd heq.1 h1
  · rfl

theorem blankRunLen_append (e r : Bytes) (hr : '\r' ∉ r) :
    blankRunLen r ≤ r.length ∧
      ∃ j, blankRunLen (r ++ e) = blankRunLen r + j ∧ (j = 0 ∨ blankRunLen r = r.length) := by
  induction r with
  | nil => exact ⟨Nat.le_refl _, blankRunLen e, by simp [blankRunLen], Or.inr rfl⟩
  | cons c t ih =>
    simp only [List.mem_cons, not_or] at hr
    obtain ⟨h1, j, h2, h3⟩ := ih hr.2
    by_cases hc : c = '\n'
    · subst hc
      rw [List.cons_append, blankRunLen_newline, blankRunLen_newline, h2]
      refine ⟨by simp only [List.length_cons]; omega, j, by omega, ?_⟩
      rcases h3 with h | h
      · exact Or.inl h
      · exact Or.inr (by simp only [List.length_cons]; omega)
    · have hc2 : c ≠ '\r' := fun h => hr.1 h.symm
      rw [List.cons_append, blankRunLen_other _ _ hc hc2, blankRunLen_other _ _ hc hc2]
      exact ⟨Nat.zero_le _, 0, rfl, Or.inl rfl⟩

theorem drop_line (p s rest : Bytes) :
    List.drop (p.length + (s.length + 1)) (p ++ (s ++ '\n' :: rest)) = rest := by
  have e : p ++ (s ++ '\n' :: rest) = (p ++ s ++ ['\n']) ++ rest := by simp
  rw [e]
  exact List.drop_left' (by simp only [List.length_append, List.length_singleton]; omega)

theorem shebangAt_some {y : Bytes} {n : Nat} (h : shebangAt y = some n) :
    ∃ s rest, y = shebangLit ++ s ++ '\n' :: rest ∧ '\n' ∉ s ∧
      n = shebangLit.length + (s.length + 1) + blankRunLen rest := by
  unfold shebangAt at h
  split at h
  · rename_i hp
    obtain ⟨r, rfl⟩ := hp
    rw [List.drop_left] at h
    cases hl : lineLen r with
    | none => simp [hl] at h
    | some k =>
      obtain ⟨s, rest, rfl, e2, rfl⟩ := lineLen_some hl
      simp only [hl, Option.map_some', Option.some.injEq, drop_line] at h
      exact ⟨s, rest, by simp, e2, h.symm⟩
  · simp at h

theorem shebangAt_line (s rest : Bytes) (hs : '\n' ∉ s) :
    shebangAt (shebangLit ++ s ++ '\n' :: rest)
      = some (shebangLit.length + (s.length + 1) + blankRunLen rest) := by
  rw [List.append_assoc, shebangAt, if_pos (List.prefix_append _ _), List.drop_left,
    lineLen_append _ _ hs]
  simp only [Option.map_some', drop_line]

theorem suffix_ends_newline {d u y w : Bytes} (hd : d = u ++ y) (hy : y ≠ [])
    (hw : d = w ++ ['\n']) : ∃ w', y = w' ++ ['\n'] := by
  obtain ⟨y1, y2, rfl⟩ : ∃ y1 y2, y = y1 ++ [y2] :=
    ⟨y.dropLast, y.getLast hy, (List.dropLast_append_getLast hy).symm⟩
  rw [hw, ← List.append_assoc] at hd
  have h2 := (List.append_inj' hd rfl).2
  simp only [List.cons.injEq, and_true] at h2
  exact ⟨y1, by rw [h2]⟩

theorem shebangAt_append_none {y : Bytes} (e : Bytes) (hy : ∃ w, y = w ++ ['\n'])
    (h : shebangAt y = none) : shebangAt (y ++ e) = none := by
  have hmem : '\n' ∈ y := by
    obtain ⟨w, rfl⟩ := hy
    simp
  have hnp : ¬ shebangLit <+: y := by
    rintro ⟨r, rfl⟩
    rw [shebangAt, if_pos (List.prefix_append _ _), List.drop_left] at h
    simp only [Option.map_eq_none'] at h
    rcases List.mem_append.1 hmem with h3 | h3
    · exact absurd h3 (by decide)
    · exact lineLen_none h h3
  rw [shebangAt, if_neg]
  intro hp
  rcases List.prefix_or_prefix_of_prefix hp (List.prefix_append y e) with h1 | h1
  · exact hnp h1
  · exact absurd (h1.subset hmem) (by decide)

theorem stripShebang_append (d e : Bytes) (hcr : '\r' ∉ d) (hend : ∃ w, d = w ++ ['\n']) :
    ∃ z, stripShebang (d ++ e) = stripShebang d ++ z := by
  obtain ⟨w, hw⟩ := hend
  refine deleteAll_append shebangAt d e ?_ ?_ d [] true 0 rfl (fun _ => Or.inl rfl)
    (Nat.zero_le _)
  · intro u y hd hy _ hm
    exact shebangAt_append_none e (suffix_ends_newline hd hy hw) hm
  · intro u y n hd _ _ hm
    obtain ⟨s, rest, rfl, hs, rfl⟩ := shebangAt_some hm
    have hr : '\r' ∉ rest := by
      intro hin
      apply hcr
      rw [hd]
      simp [hin]
    obtain ⟨h1, j, h2, h3⟩ := blankRunLen_append e rest hr
    refine ⟨by simp only [List.length_append, List.length_cons]; omega, j, ?_, ?_⟩
    · rw [List.append_assoc, List.cons_append, shebangAt_line _ _ hs, h2]
      exact congrArg some (by omega)
    · rcases h3 with h | h
      · exact Or.inl h
      · right
        simp only [List.length_append, List.length_cons]
        omega

theorem preprocess_append (extension : String) (d e : Bytes)
    (hgo : extension = "go" → LastLineNoBuildTag (stripCR d))
    (hsh : extension = "sh" → ∃ w, stripCR d = w ++ ['\n']) :
    ∃ z, preprocess extension (d ++ e) = preprocess extension d ++ z := by
  by_cases h1 : extension = "go"
  · subst h1
    rw [preprocess_go, preprocess_go, stripCR_append]
    exact stripBuildTags_append _ _ (hgo rfl)
  · by_cases h2 : extension = "sh"
    · subst h2
      rw [preprocess_sh, preprocess_sh, stripCR_append]
      exact stripShebang_append _ _ (not_mem_stripCR d) (hsh rfl)
    · exact ⟨stripCR e, by simp [preprocess, h1, h2, stripCR_append]⟩

/-- C6, amended: a passing content followed by any further bytes passes, for
every extension other than `go` and `sh`; for `go` when the content, carriage
returns removed, ends with a complete line that does not start with
`// +build`; for `sh` when it ends with a newline. -/
theorem filePasses_append (extension : String) (d e ref : Bytes)
    (hgo : extension = "go" → LastLineNoBuildTag (stripCR d))
    (hsh : extension = "sh" → ∃ w, stripCR d = w ++ ['\n'])
    (h : filePasses extension d ref = true) :
    filePasses extension (d ++ e) ref = true := by
  obtain ⟨z, hz⟩ := preprocess_append extension d e hgo hsh
  rw [filePasses, hz]
  exact headerMatches_append z h


theorem filePasses_append_witness :
    LastLineNoBuildTag (stripCR "/*\nCopyright 2021 The Foo Authors\n*/\n".toList) ∧
      filePasses "go" "/*\nCopyright 2021 The Foo Authors\n*/\n".toList
        "/*\nCopyright YEAR The Foo Authors\n*/\n".toList = true ∧
      filePasses "go"
        ("/*\nCopyright 2021 The Foo Authors\n*/\n".toList ++ "\npackage main\n".toList)
        "/*\nCopyright YEAR The Foo Authors\n*/\n".toList = true :=
  have hl : LastLineNoBuildTag (stripCR "/*\nCopyright 2021 The Foo Authors\n*/\n".toList) :=
    ⟨"/*\nCopyright 2021 The Foo Authors\n".toList, "*/".toList, by decide,
      Or.inr ⟨"/*\nCopyright 2021 The Foo Authors".toList, by decide⟩, by decide, by decide⟩
  ⟨hl, by decide,
    filePasses_append "go" _ _ _ (fun _ => hl) (fun h => absurd h (by decide)) (by decide)⟩

/-- C6 as stated fails: the Go content `// +build linux\n` passes against the
reference `// +build linux\n`, but followed by a newline it is a build-tag
block closed by a blank line, which is deleted, and the file fails. -/
theorem filePasses_append_counterexample :
    ¬ (∀ (extension : String) (d e ref : Bytes), filePasses extension d ref = true →
        filePasses extension (d ++ e) ref = true) := by
  intro h
  have := h "go" "// +build linux\n".toList "\n".toList "// +build linux\n".toList (by decide)
  revert this
  decide


theorem digit_ne {c x : Char} (hc : c.isDigit = true) (hx : x.isDigit = false) : c ≠ x := by
  rintro rfl
  rw [hc] at hx
  exact absurd hx (by decide)

theorem isYear_not_mem {u : Bytes} (hu : IsYear u) {x : Char} (hx : x.isDigit = false) :
    x ∉ u := fun h => digit_ne (hu.2 x h) hx rfl

theorem yearAt_iff (x : Bytes) :
    yearAt x = true ↔ ∃ u t, x = copyrightLit ++ u ++ t ∧ IsYear u := by
  constructor
  · intro h
    unfold yearAt at h
    simp only [Bool.and_eq_true, decide_eq_true_eq] at h
    obtain ⟨⟨r, rfl⟩, h2⟩ := h
    rw [List.drop_left] at h2
    match r, h2 with
    | a :: b :: c :: d :: r, h2 =>
      simp only [Bool.and_eq_true] at h2
      refine ⟨[a, b, c, d], r, by simp, rfl, ?_⟩
      intro x hx
      simp only [List.mem_cons, List.mem_singleton, List.not_mem_nil, or_false] at hx
      rcases hx with rfl | rfl | rfl | rfl
      · exact h2.1.1.1
      · exact h2.1.1.2
      · exact h2.1.2
      · exact h2.2
  · rintro ⟨u, t, rfl, hl, hd⟩
    match u, hl, hd with
    | [a, b, c, d], _, hd =>
      unfold yearAt
      rw [List.append_assoc, List.drop_left]
      simp [hd a, hd b, hd c, hd d]

theorem replaceYearAux_skip (p t : Bytes) :
    replaceYearAux p.length (p ++ t) = replaceYearAux 0 t := by
  induction p with
  | nil => rfl
  | cons c p ih => rw [List.length_cons, List.cons_append, replaceYearAux, ih]

theorem replaceYearAux_year (u t : Bytes) (hu : IsYear u) :
    replaceYearAux 0 (copyrightLit ++ u ++ t) = copyrightYEAR ++ replaceYearAux 0 t := by
  have hy : yearAt (copyrightLit ++ u ++ t) = true := (yearAt_iff _).2 ⟨u, t, rfl, hu⟩
  have e : copyrightLit ++ u ++ t = 'C' :: ("opyright ".toList ++ u ++ t) := by
    simp [copyrightLit]
  have hl : ("opyright ".toList ++ u).length = 13 := by
    rw [List.length_append, hu.1]; rfl
  rw [e] at hy ⊢
  rw [replaceYearAux, if_pos hy, ← hl, replaceYearAux_skip]

theorem replaceYearAux_cons_of_not {c : Char} {t : Bytes} (h : yearAt (c :: t) = false) :
    replaceYearAux 0 (c :: t) = c :: replaceYearAux 0 t := by
  rw [replaceYearAux, if_neg (by simp [h])]


theorem yearVariant_refl : ∀ x : Bytes, YearVariant x x
  | [] => YearVariant.nil
  | c :: x => YearVariant.same c (yearVariant_refl x)

theorem yearVariant_append_left (a : Bytes) {x y : Bytes} (h : YearVariant x y) :
    YearVariant (a ++ x) (a ++ y) := by
  induction a with
  | nil => exact h
  | cons c a ih => exact YearVariant.same c ih

theorem yearVariant_length_eq {x y : Bytes} (h : YearVariant x y) : x.length = y.length := by
  induction h with
  | nil => rfl
  | same c _ ih => simp [ih]
  | year hu hv _ ih => simp [ih, hu.1, hv.1]

theorem isYear_nl {u : Bytes} (hu : IsYear u) : '\n' ∉ copyrightLit ++ u := by
  intro h
  rcases List.mem_append.1 h with h | h
  · exact absurd h (by decide)
  · exact isYear_not_mem hu (by decide) h

theorem isYear_cr {u : Bytes} (hu : IsYear u) : '\r' ∉ copyrightLit ++ u := by
  intro h
  rcases List.mem_append.1 h with h | h
  · exact absurd h (by decide)
  · exact isYear_not_mem hu (by decide) h

theorem stripCR_of_not_mem {p : Bytes} (h : '\r' ∉ p) : stripCR p = p := by
  rw [stripCR, List.filter_eq_self]
  intro c hc
  simp only [decide_eq_true_eq]
  rintro rfl
  exact h hc

theorem yearVariant_stripCR {x y : Bytes} (h : YearVariant x y) :
    YearVariant (stripCR x) (stripCR y) := by
  induction h with
  | nil => exact YearVariant.nil
  | same c _ ih =>
    by_cases hc : c = '\r'
    · simpa [stripCR, hc] using ih
    · have e : ∀ z, stripCR (c :: z) = c :: stripCR z := by
        intro z; simp [stripCR, hc]
      rw [e, e]
      exact YearVariant.same c ih
  | year hu hv _ ih =>
    have e : ∀ w z, IsYear w →
        stripCR (copyrightLit ++ w ++ z) = copyrightLit ++ w ++ stripCR z := by
      intro w z hw
      rw [stripCR_append (copyrightLit ++ w), stripCR_of_not_mem (isYear_cr hw)]
    rw [e _ _ hu, e _ _ hv]
    exact YearVariant.year hu hv ih

/-- A newline of the first content stands at the same place in the second, and
what follows it is again related. -/
theorem yearVariant_split_newline {x y : Bytes} (h : YearVariant x y) :
    ∀ w r, x = w ++ '\n' :: r →
      ∃ w' r', y = w' ++ '\n' :: r' ∧ w'.length = w.length ∧ YearVariant r r' := by
  induction h with
  | nil => intro w r h; simp at h
  | same c hxy ih =>
    intro w r h
    cases w with
    | nil =>
      simp only [List.nil_append, List.cons.injEq] at h
      obtain ⟨rfl, rfl⟩ := h
      exact ⟨[], _, rfl, rfl, hxy⟩
    | cons c' w =>
      simp only [List.cons_append, List.cons.injEq] at h
      obtain ⟨rfl, rfl⟩ := h
      obtain ⟨w', r', rfl, hl, hr⟩ := ih w r rfl
      exact ⟨c :: w', r', rfl, by simp [hl], hr⟩
  | @year u v x y hu hv hxy ih =>
    intro w r h
    rcases List.append_eq_append_iff.1 h with ⟨a, rfl, rfl⟩ | ⟨c, hc, hc2⟩
    · obtain ⟨w', r', rfl, hl, hr⟩ := ih a r rfl
      exact ⟨copyrightLit ++ v ++ w', r', by simp, by simp [hl, hu.1, hv.1], hr⟩
    · cases c with
      | nil =>
        simp only [List.append_nil, List.nil_append] at hc hc2
        subst hc
        obtain ⟨w', r', rfl, hl, hr⟩ := ih [] r hc2.symm
        exact ⟨copyrightLit ++ v ++ w', r', by simp, by
          simp only [List.length_nil, List.length_eq_zero] at hl
          simp [hl, hu.1, hv.1], hr⟩
      | cons c0 c =>
        exfalso
        simp only [List.cons_append, List.cons.injEq] at hc2
        apply isYear_nl hu
        rw [hc, ← hc2.1]
        simp


theorem digitVariant_refl (x : Bytes) : DigitVariant x x :=
  List.forall₂_same.2 (fun _ _ => Or.inl rfl)

theorem digitVariant_append {a b x y : Bytes} (h1 : DigitVariant a b) (h2 : DigitVariant x y) :
    DigitVariant (a ++ x) (b ++ y) :=
  List.rel_append h1 h2

theorem digitVariant_year {u v : Bytes} (hu : IsYear u) (hv : IsYear v) : DigitVariant u v := by
  obtain ⟨hl, hd⟩ := hu
  obtain ⟨hl', hd'⟩ := hv
  match u, v, hl, hl', hd, hd' with
  | [a, b, c, d], [a', b', c', d'], _, _, hd, hd' =>
    refine List.Forall₂.cons (Or.inr ⟨hd a (by simp), hd' a' (by simp)⟩)
      (List.Forall₂.cons (Or.inr ⟨hd b (by simp), hd' b' (by simp)⟩)
        (List.Forall₂.cons (Or.inr ⟨hd c (by simp), hd' c' (by simp)⟩)
          (List.Forall₂.cons (Or.inr ⟨hd d (by simp), hd' d' (by simp)⟩) List.Forall₂.nil)))

theorem yearVariant_digitVariant {x y : Bytes} (h : YearVariant x y) : DigitVariant x y := by
  induction h with
  | nil => exact List.Forall₂.nil
  | same c _ ih => exact List.Forall₂.cons (Or.inl rfl) ih
  | year hu hv _ ih =>
    exact digitVariant_append (digitVariant_append (digitVariant_refl copyrightLit) (digitVariant_year hu hv)) ih

/-- A literal without digits starts both contents or neither. -/
theorem digitVariant_lit_iff (lit : Bytes) (hlit : ∀ c ∈ lit, c.isDigit = false) :
    ∀ {x y : Bytes}, DigitVariant x y → (lit <+: x ↔ lit <+: y) := by
  induction lit with
  | nil => intro x y _; simp
  | cons a lit ih =>
    intro x y h
    cases h with
    | nil => simp
    | cons hab ht =>
      rename_i b c x y
      have ha : a.isDigit = false := hlit a (List.mem_cons_self _ _)
      have hrec := ih (fun c hc => hlit c (List.mem_cons_of_mem _ hc)) ht
      rw [List.cons_prefix_cons, List.cons_prefix_cons, hrec]
      rcases hab with rfl | ⟨hb, hc⟩
      · rfl
      · constructor
        · rintro ⟨rfl, _⟩; rw [ha] at hb; exact absurd hb (by decide)
        · rintro ⟨rfl, _⟩; rw [ha] at hc; exact absurd hc (by decide)

theorem digitVariant_eq_iff {a b x : Char} (h : a = b ∨ (a.isDigit = true ∧ b.isDigit = true))
    (hx : x.isDigit = false) : a = x ↔ b = x := by
  rcases h with rfl | ⟨ha, hb⟩
  · rfl
  · exact ⟨fun e => absurd e (digit_ne ha hx), fun e => absurd e (digit_ne hb hx)⟩

theorem digitVariant_lineLen {x y : Bytes} (h : DigitVariant x y) :
    lineLen x = lineLen y := by
  induction h with
  | nil => rfl
  | cons hab _ ih =>
    rw [lineLen, lineLen, ih]
    simp only [digitVariant_eq_iff hab (by decide : ('\n').isDigit = false)]

theorem digitVariant_blankLen {x y : Bytes} (h : DigitVariant x y) :
    blankLen x = blankLen y := by
  cases h with
  | nil => rfl
  | cons hab ht =>
    cases ht with
    | nil =>
      rename_i a b
      have e : ∀ c : Char, blankLen [c] = if c = '\n' then some 1 else none := by
        intro c
        unfold blankLen
        split
        · rename_i heq; simp at heq
        · rename_i heq; simp only [List.cons.injEq] at heq; simp [heq.1]
        · rename_i h1 h2
          have : ¬ c = '\n' := fun h => h2 [] (by rw [h])
          simp [this]
      rw [e, e]
      simp only [digitVariant_eq_iff hab (by decide : ('\n').isDigit = false)]
    | cons hab2 _ =>
      rw [blankLen_cons_cons, blankLen_cons_cons]
      simp only [digitVariant_eq_iff hab (by decide : ('\n').isDigit = false),
        digitVariant_eq_iff hab (by decide : ('\r').isDigit = false),
        digitVariant_eq_iff hab2 (by decide : ('\n').isDigit = false)]


theorem blankRunLen_cons_cons (c c2 : Char) (t : Bytes) :
    blankRunLen (c :: c2 :: t)
      = if c = '\r' ∧ c2 = '\n' then 2 + blankRunLen t
        else if c = '\n' then 1 + blankRunLen (c2 :: t) else 0 := by
  by_cases h1 : c = '\r' ∧ c2 = '\n'
  · obtain ⟨rfl, rfl⟩ := h1
    rw [blankRunLen]
    simp
  · rw [if_neg h1]
    by_cases h2 : c = '\n'
    · subst h2
      rw [blankRunLen_newline]
      simp
    · rw [if_neg h2]
      unfold blankRunLen
      split
      · rename_i heq
        simp only [List.cons.injEq] at heq
        exact absurd ⟨heq.1, heq.2.1⟩ h1
      · rename_i heq
        simp only [List.cons.injEq] at heq
        exact absurd heq.1 h2
      · rfl

theorem blankRunLen_singleton (c : Char) : blankRunLen [c] = if c = '\n' then 1 else 0 := by
  by_cases h2 : c = '\n'
  · subst h2; rfl
  · rw [if_neg h2]
    unfold blankRunLen
    split
    · rename_i heq; simp at heq
    · rename_i heq; simp only [List.cons.injEq] at heq; exact absurd heq.1 h2
    · rfl

theorem digitVariant_blankRunLen :
    ∀ (n : Nat) {x y : Bytes}, x.length ≤ n → DigitVariant x y →
      blankRunLen x = blankRunLen y := by
  intro n
  induction n with
  | zero =>
    intro x y hn h
    cases h with
    | nil => rfl
    | cons _ _ => simp at hn
  | succ n ih =>
    intro x y hn h
    cases h with
    | nil => rfl
    | cons hab ht =>
      cases ht with
      | nil =>
        rw [blankRunLen_singleton, blankRunLen_singleton]
        simp only [digitVariant_eq_iff hab (by decide : ('\n').isDigit = false)]
      | cons hab2 ht2 =>
        simp only [List.length_cons] at hn
        have e1 := ih (by simp only [List.length_cons]; omega) (List.Forall₂.cons hab2 ht2)
        have e2 := ih (by omega) ht2
        rw [blankRunLen_cons_cons, blankRunLen_cons_cons, e1, e2]
        simp only [digitVariant_eq_iff hab (by decide : ('\n').isDigit = false),
          digitVariant_eq_iff hab (by decide : ('\r').isDigit = false),
          digitVariant_eq_iff hab2 (by decide : ('\n').isDigit = false)]

theorem digitVariant_buildLineLen {x y : Bytes} (h : DigitVariant x y) :
    buildLineLen x = buildLineLen y := by
  unfold buildLineLen
  have hp := digitVariant_lit_iff buildLit (by decide) h
  have hl := digitVariant_lineLen (List.forall₂_drop buildLit.length h)
  simp only [hp, hl]

theorem digitVariant_buildBlockLen :
    ∀ (f : Nat) {x y : Bytes}, DigitVariant x y →
      buildBlockLen f x = buildBlockLen f y := by
  intro f
  induction f with
  | zero => intro x y _; rfl
  | succ f ih =>
    intro x y h
    rw [buildBlockLen, buildBlockLen, digitVariant_buildLineLen h]
    cases buildLineLen y with
    | none => rfl
    | some n =>
      have hd := List.forall₂_drop n h
      simp only [ih hd, digitVariant_blankLen hd]

theorem digitVariant_buildTagsAt {x y : Bytes} (h : DigitVariant x y) :
    buildTagsAt x = buildTagsAt y := by
  rw [buildTagsAt, buildTagsAt, List.Forall₂.length_eq h]
  exact digitVariant_buildBlockLen _ h

theorem digitVariant_shebangAt {x y : Bytes} (h : DigitVariant x y) :
    shebangAt x = shebangAt y := by
  unfold shebangAt
  have hp := digitVariant_lit_iff shebangLit (by decide) h
  have hl := digitVariant_lineLen (List.forall₂_drop shebangLit.length h)
  have hb : ∀ n, blankRunLen (List.drop n x) = blankRunLen (List.drop n y) :=
    fun n => digitVariant_blankRunLen _ (Nat.le_refl _) (List.forall₂_drop n h)
  simp only [hp, hl, hb]

theorem digitVariant_hasCopyrightYEAR {x y : Bytes} (h : DigitVariant x y) :
    hasCopyrightYEAR x = hasCopyrightYEAR y := by
  induction h with
  | nil => rfl
  | cons hab ht ih =>
    have hp := digitVariant_lit_iff copyrightYEAR (by decide) (List.Forall₂.cons hab ht)
    rw [hasCopyrightYEAR, hasCopyrightYEAR, ih]
    simp only [hp]


theorem deleteAll_drop (m : Bytes → Option Nat) {x w r : Bytes} {n : Nat}
    (hm : m x = some n) (hx : x = w ++ '\n' :: r) (hn : n = w.length + 1) :
    deleteAll m true 0 x = deleteAll m true 0 r := by
  subst hx hn
  cases w with
  | nil =>
    rw [List.nil_append] at hm ⊢
    rw [deleteAll, if_pos rfl, hm]
    simp
  | cons c w =>
    rw [List.cons_append] at hm ⊢
    rw [deleteAll, if_pos rfl, hm]
    simp only [List.length_cons]
    exact deleteAll_skip_line m w r _

theorem deleteAll_emit (m : Bytes → Option Nat) (b : Bool) (c : Char) (t : Bytes)
    (h : b = false ∨ m (c :: t) = none ∨ m (c :: t) = some 0) :
    deleteAll m b 0 (c :: t) = c :: deleteAll m (decide (c = '\n')) 0 t := by
  rw [deleteAll]
  rcases h with rfl | h | h
  · simp
  · cases b <;> simp [h]
  · cases b <;> simp [h]

/-- Deleting the matches of a pattern that does not look at digits, whose
matches end with a newline and do not start with `C`, keeps two contents year
variants of each other. -/
theorem yearVariant_deleteAll (m : Bytes → Option Nat)
    (M1 : ∀ x y, DigitVariant x y → m x = m y)
    (M2 : ∀ x n, m x = some n → ∃ w r, x = w ++ '\n' :: r ∧ n = w.length + 1)
    (M3 : ∀ t, m ('C' :: t) = none) :
    ∀ (n : Nat) {x y : Bytes} (b : Bool), x.length ≤ n → YearVariant x y →
      YearVariant (deleteAll m b 0 x) (deleteAll m b 0 y) := by
  intro n
  induction n with
  | zero =>
    intro x y b hn h
    cases h with
    | nil => exact YearVariant.nil
    | same c _ => simp at hn
    | year hu _ _ => simp [copyrightLit] at hn
  | succ n ih =>
    intro x y b hn h
    cases h with
    | nil => exact YearVariant.nil
    | @same c t t' hxy =>
      have hm : m (c :: t) = m (c :: t') := M1 _ _ (yearVariant_digitVariant (YearVariant.same c hxy))
      by_cases hcase : b = true ∧ ∃ k, m (c :: t) = some (k + 1)
      · obtain ⟨rfl, k, hk⟩ := hcase
        obtain ⟨w, r, hx, hkw⟩ := M2 _ _ hk
        obtain ⟨w', r', hy, hl, hr⟩ := yearVariant_split_newline (YearVariant.same c hxy) w r hx
        rw [deleteAll_drop m hk hx hkw, deleteAll_drop m (hm ▸ hk) hy (by rw [hl]; exact hkw)]
        refine ih true ?_ hr
        have : (c :: t).length = (w ++ '\n' :: r).length := by rw [hx]
        simp only [List.length_cons, List.length_append] at this hn
        omega
      · have hc1 : b = false ∨ m (c :: t) = none ∨ m (c :: t) = some 0 := by
          cases b with
          | false => exact Or.inl rfl
          | true =>
            right
            cases hmm : m (c :: t) with
            | none => exact Or.inl rfl
            | some k =>
              cases k with
              | zero => exact Or.inr rfl
              | succ k => exact absurd ⟨rfl, k, hmm⟩ hcase
        rw [deleteAll_emit m b c t hc1, deleteAll_emit m b c t' (hm ▸ hc1)]
        exact YearVariant.same c (ih _ (by simpa using hn) hxy)
    | @year u v t t' hu hv hxy =>
      have e : ∀ w z, IsYear w →
          deleteAll m b 0 (copyrightLit ++ w ++ z)
            = copyrightLit ++ w ++ deleteAll m false 0 z := by
        intro w z hw
        have e1 : copyrightLit ++ w ++ z = 'C' :: ((copyrightLit.tail ++ w) ++ z) := by
          simp [copyrightLit]
        have hnl : '\n' ∉ copyrightLit.tail ++ w := by
          intro hin
          apply isYear_nl hw
          rcases List.mem_append.1 hin with h1 | h1
          · exact List.mem_append_left _ (List.mem_of_mem_tail h1)
          · exact List.mem_append_right _ h1
        rw [e1, deleteAll_emit m b _ _ (Or.inr (Or.inl (M3 _))),
          show decide ('C' = '\n') = false from by decide, deleteAll_mid m _ _ hnl]
        simp [copyrightLit]
      rw [e _ _ hu, e _ _ hv]
      refine YearVariant.year hu hv (ih false ?_ hxy)
      have hK : copyrightLit.length = 10 := rfl
      simp only [List.length_append, hK] at hn
      omega


theorem blankLen_some {r : Bytes} {j : Nat} (h : blankLen r = some j) :
    ∃ w t, r = w ++ '\n' :: t ∧ j = w.length + 1 := by
  unfold blankLen at h
  split at h
  · rename_i t
    simp only [Option.some.injEq] at h
    exact ⟨['\r'], t, rfl, h.symm⟩
  · rename_i t
    simp only [Option.some.injEq] at h
    exact ⟨[], t, rfl, h.symm⟩
  · simp at h

theorem buildBlockLen_ends :
    ∀ (f : Nat) (x : Bytes) (n : Nat), buildBlockLen f x = some n →
      ∃ w r, x = w ++ '\n' :: r ∧ n = w.length + 1 := by
  intro f
  induction f with
  | zero => intro x n h; simp [buildBlockLen] at h
  | succ f ih =>
    intro x n h
    rw [buildBlockLen] at h
    cases hl : buildLineLen x with
    | none => simp [hl] at h
    | some k =>
      obtain ⟨s, rest, rfl, hs, rfl⟩ := buildLineLen_some hl
      simp only [hl, List.drop_left] at h
      cases hb : buildBlockLen f rest with
      | some m =>
        simp only [hb, Option.some.injEq] at h
        obtain ⟨w, r, rfl, rfl⟩ := ih rest m hb
        exact ⟨buildTagLine s ++ w, r, by simp, by
          rw [← h, List.length_append]; omega⟩
      | none =>
        simp only [hb] at h
        cases hj : blankLen rest with
        | none => simp [hj] at h
        | some j =>
          simp only [hj, Option.map_some', Option.some.injEq] at h
          obtain ⟨w, r, rfl, rfl⟩ := blankLen_some hj
          exact ⟨buildTagLine s ++ w, r, by simp, by
            rw [← h, List.length_append]; omega⟩

theorem buildTagsAt_C (t : Bytes) : buildTagsAt ('C' :: t) = none := by
  have : buildLineLen ('C' :: t) = none := by simp [buildLineLen, buildLit]
  rw [buildTagsAt, List.length_cons, buildBlockLen, this]

theorem shebangAt_C (t : Bytes) : shebangAt ('C' :: t) = none := by
  simp [shebangAt, shebangLit]

theorem blankRun_split :
    ∀ (n : Nat) (rest : Bytes), rest.length ≤ n →
      ∃ bl r, rest = bl ++ r ∧ bl.length = blankRunLen rest ∧
        (bl = [] ∨ ∃ w0, bl = w0 ++ ['\n']) := by
  intro n
  induction n with
  | zero =>
    intro rest hn
    have : rest = [] := List.length_eq_zero.1 (Nat.le_zero.1 hn)
    subst this
    exact ⟨[], [], rfl, rfl, Or.inl rfl⟩
  | succ n ih =>
    intro rest hn
    match rest, hn with
    | [], _ => exact ⟨[], [], rfl, rfl, Or.inl rfl⟩
    | [c], _ =>
      rw [blankRunLen_singleton]
      by_cases hc : c = '\n'
      · subst hc
        exact ⟨['\n'], [], rfl, rfl, Or.inr ⟨[], rfl⟩⟩
      · exact ⟨[], [c], rfl, by simp [hc], Or.inl rfl⟩
    | c :: c2 :: t, hn =>
      simp only [List.length_cons] at hn
      rw [blankRunLen_cons_cons]
      by_cases h1 : c = '\r' ∧ c2 = '\n'
      · obtain ⟨rfl, rfl⟩ := h1
        obtain ⟨bl, r, rfl, hl, hb⟩ := ih t (by omega)
        refine ⟨'\r' :: '\n' :: bl, r, rfl, by simp [hl]; omega, Or.inr ?_⟩
        rcases hb with rfl | ⟨w0, rfl⟩
        · exact ⟨['\r'], rfl⟩
        · exact ⟨'\r' :: '\n' :: w0, rfl⟩
      · rw [if_neg h1]
        by_cases h2 : c = '\n'
        · subst h2
          obtain ⟨bl, r, hr, hl, hb⟩ := ih (c2 :: t) (by simp only [List.length_cons]; omega)
          refine ⟨'\n' :: bl, r, by rw [hr]; rfl, by simp [hl]; omega, Or.inr ?_⟩
          rcases hb with rfl | ⟨w0, rfl⟩
          · exact ⟨[], rfl⟩
          · exact ⟨'\n' :: w0, rfl⟩
        · rw [if_neg h2]
          exact ⟨[], c :: c2 :: t, rfl, rfl, Or.inl rfl⟩

theorem shebangAt_ends (x : Bytes) (n : Nat) (h : shebangAt x = some n) :
    ∃ w r, x = w ++ '\n' :: r ∧ n = w.length + 1 := by
  obtain ⟨s, rest, rfl, _, rfl⟩ := shebangAt_some h
  obtain ⟨bl, r, rfl, hl, hb⟩ := blankRun_split _ rest (Nat.le_refl _)
  rcases hb with rfl | ⟨w0, rfl⟩
  · exact ⟨shebangLit ++ s, r, by simp, by
      rw [← hl]; simp only [List.length_append, List.length_nil]; omega⟩
  · exact ⟨shebangLit ++ s ++ '\n' :: w0, r, by simp, by
      rw [← hl]; simp only [List.length_append, List.length_cons, List.length_nil]; omega⟩

theorem yearVariant_preprocess (extension : String) {x y : Bytes} (h : YearVariant x y) :
    YearVariant (preprocess extension x) (preprocess extension y) := by
  have h1 := yearVariant_stripCR h
  unfold preprocess
  simp only
  have h2 : YearVariant
      (if extension = "go" then stripBuildTags (stripCR x) else stripCR x)
      (if extension = "go" then stripBuildTags (stripCR y)
        else stripCR y) := by
    split
    · exact yearVariant_deleteAll buildTagsAt (fun _ _ => digitVariant_buildTagsAt)
        (fun x n => buildBlockLen_ends _ x n) buildTagsAt_C _ true (Nat.le_refl _) h1
    · exact h1
  split
  · exact yearVariant_deleteAll shebangAt (fun _ _ => digitVariant_shebangAt)
      shebangAt_ends shebangAt_C _ true (Nat.le_refl _) h2
  · exact h2


theorem yearVariant_symm {x y : Bytes} (h : YearVariant x y) : YearVariant y x := by
  induction h with
  | nil => exact YearVariant.nil
  | same c _ ih => exact YearVariant.same c ih
  | year hu hv _ ih => exact YearVariant.year hv hu ih

theorem isYear_C {u : Bytes} (hu : IsYear u) : 'C' ∉ copyrightLit.tail ++ u := by
  intro h
  rcases List.mem_append.1 h with h | h
  · exact absurd h (by decide)
  · exact isYear_not_mem hu (by decide) h

theorem yearVariant_inv_lit (p : Bytes) (hp : 'C' ∉ p) :
    ∀ {t y : Bytes}, YearVariant (p ++ t) y → ∃ t', y = p ++ t' ∧ YearVariant t t' := by
  induction p with
  | nil => intro t y h; exact ⟨y, rfl, h⟩
  | cons a p ih =>
    intro t y h
    simp only [List.mem_cons, not_or] at hp
    generalize hx : (a :: p) ++ t = x at h
    cases h with
    | nil => simp at hx
    | same c hxy =>
      simp only [List.cons_append, List.cons.injEq] at hx
      obtain ⟨rfl, rfl⟩ := hx
      obtain ⟨t', rfl, ht⟩ := ih hp.2 hxy
      exact ⟨t', rfl, ht⟩
    | year hu hv hxy =>
      simp only [copyrightLit, String.toList, List.cons_append, List.cons.injEq] at hx
      exact absurd hx.1.symm hp.1

theorem yearVariant_inv_year {u t y : Bytes} (hu : IsYear u)
    (h : YearVariant (copyrightLit ++ u ++ t) y) :
    ∃ v t', y = copyrightLit ++ v ++ t' ∧ IsYear v ∧ YearVariant t t' := by
  generalize hx : copyrightLit ++ u ++ t = x at h
  cases h with
  | nil => simp [copyrightLit] at hx
  | same c hxy =>
    rename_i x1 y1
    have e : copyrightLit ++ u ++ t = 'C' :: ((copyrightLit.tail ++ u) ++ t) := by
      simp [copyrightLit]
    rw [e] at hx
    simp only [List.cons.injEq] at hx
    obtain ⟨rfl, rfl⟩ := hx
    obtain ⟨t', rfl, ht⟩ := yearVariant_inv_lit _ (isYear_C hu) hxy
    exact ⟨u, t', by simp [copyrightLit], hu, ht⟩
  | @year u1 v1 x1 y1 hu1 hv1 hxy =>
    rw [List.append_assoc, List.append_assoc, List.append_cancel_left_eq] at hx
    obtain ⟨rfl, rfl⟩ := List.append_inj hx (by rw [hu.1, hu1.1])
    exact ⟨v1, y1, rfl, hv1, hxy⟩

/-- Year normalisation gives the same result on year variants. -/
theorem yearVariant_replaceYearAux :
    ∀ (n : Nat) {x y : Bytes}, x.length ≤ n → YearVariant x y →
      replaceYearAux 0 x = replaceYearAux 0 y := by
  intro n
  induction n with
  | zero =>
    intro x y hn h
    have : x = [] := List.length_eq_zero.1 (Nat.le_zero.1 hn)
    subst this
    have : y = [] := List.length_eq_zero.1 (by rw [← yearVariant_length_eq h]; rfl)
    subst this
    rfl
  | succ n ih =>
    intro x y hn h
    by_cases hy : yearAt x = true
    · obtain ⟨u, t, rfl, hu⟩ := (yearAt_iff x).1 hy
      obtain ⟨v, t', rfl, hv, ht⟩ := yearVariant_inv_year hu h
      rw [replaceYearAux_year _ _ hu, replaceYearAux_year _ _ hv]
      have hK : copyrightLit.length = 10 := rfl
      rw [ih (by simp only [List.length_append, hK] at hn; omega) ht]
    · have hy' : ¬ yearAt y = true := by
        intro hh
        obtain ⟨v, t', rfl, hv⟩ := (yearAt_iff y).1 hh
        obtain ⟨u, t, rfl, hu, _⟩ := yearVariant_inv_year hv (yearVariant_symm h)
        exact hy ((yearAt_iff _).2 ⟨u, t, rfl, hu⟩)
      cases h with
      | nil => rfl
      | same c hxy =>
        simp only [Bool.not_eq_true] at hy hy'
        rw [replaceYearAux_cons_of_not hy, replaceYearAux_cons_of_not hy',
          ih (by simpa using hn) hxy]
      | year hu hv hxy => exact absurd ((yearAt_iff _).2 ⟨_, _, rfl, hu⟩) hy


/-- Truncation keeps year variants related, unless it cuts through the digits
of a year: then the truncated content ends with `Copyright ` and one to three
digits. -/
theorem yearVariant_take {x y : Bytes} (h : YearVariant x y) :
    ∀ n, YearVariant (x.take n) (y.take n) ∨
      ∃ p u', x.take n = p ++ (copyrightLit ++ u') ∧ u' ≠ [] ∧ u'.length < 4 ∧
        ∀ c ∈ u', c.isDigit = true := by
  induction h with
  | nil => intro n; left; simpa using YearVariant.nil
  | same c _ ih =>
    intro n
    cases n with
    | zero => left; simpa using YearVariant.nil
    | succ n =>
      rcases ih n with h1 | ⟨p, u', h1, h2, h3, h4⟩
      · left; simpa using YearVariant.same c h1
      · right; exact ⟨c :: p, u', by simp [h1], h2, h3, h4⟩
  | @year u v x y hu hv hxy ih =>
    intro n
    have hK : copyrightLit.length = 10 := rfl
    by_cases h10 : n ≤ 10
    · left
      have e : ∀ w z : Bytes, (copyrightLit ++ w ++ z).take n = copyrightLit.take n := by
        intro w z
        rw [List.append_assoc, List.take_append_of_le_length (by rw [hK]; exact h10)]
      rw [e, e]
      exact yearVariant_refl _
    · by_cases h14 : n < 14
      · right
        refine ⟨[], u.take (n - 10), ?_, ?_, ?_, ?_⟩
        · rw [List.nil_append, List.append_assoc, List.take_append_eq_append_take,
            List.take_of_length_le (by rw [hK]; omega), hK,
            List.take_append_of_le_length (by rw [hu.1]; omega)]
        · intro h0
          have := congrArg List.length h0
          rw [List.length_take, hu.1] at this
          simp only [List.length_nil] at this
          omega
        · rw [List.length_take, hu.1]; omega
        · intro c hc
          exact hu.2 c (List.mem_of_mem_take hc)
      · have e : ∀ w z : Bytes, w.length = 4 →
            (copyrightLit ++ w ++ z).take n = copyrightLit ++ w ++ z.take (n - 14) := by
          intro w z hw
          rw [List.take_append_eq_append_take,
            List.take_of_length_le (by rw [List.length_append, hK, hw]; omega),
            List.length_append, hK, hw]
        rw [e _ _ hu.1, e _ _ hv.1]
        rcases ih (n - 14) with h1 | ⟨p, u', h1, h2, h3, h4⟩
        · left; exact YearVariant.year hu hv h1
        · right; exact ⟨copyrightLit ++ u ++ p, u', by simp [h1], h2, h3, h4⟩

theorem yearAt_append_C {p z : Bytes} (hp : p ≠ []) (h : yearAt (p ++ 'C' :: z) = true) :
    yearAt p = true := by
  obtain ⟨u, t, hx, hu⟩ := (yearAt_iff _).1 h
  rcases List.append_eq_append_iff.1 hx with ⟨a, ha, ha2⟩ | ⟨c, hc, _⟩
  · cases a with
    | nil =>
      rw [List.append_nil] at ha
      exact (yearAt_iff _).2 ⟨u, [], by rw [List.append_nil, ha], hu⟩
    | cons a0 a =>
      exfalso
      simp only [List.cons_append, List.cons.injEq] at ha2
      cases p with
      | nil => exact hp rfl
      | cons p0 p =>
        have e : copyrightLit ++ u = 'C' :: (copyrightLit.tail ++ u) := by simp [copyrightLit]
        rw [e, List.cons_append] at ha
        simp only [List.cons.injEq] at ha
        apply isYear_C hu
        rw [ha.2, ← ha2.1]
        simp
  · exact (yearAt_iff _).2 ⟨u, c, hc, hu⟩

/-- Year normalisation works on the two sides of a `C` independently: no match
of `Copyright \d{4}` has a `C` inside. -/
theorem replaceYearAux_append_C (z : Bytes) :
    ∀ (n : Nat) (p : Bytes), p.length ≤ n →
      replaceYearAux 0 (p ++ 'C' :: z) = replaceYearAux 0 p ++ replaceYearAux 0 ('C' :: z) := by
  intro n
  induction n with
  | zero =>
    intro p hn
    have : p = [] := List.length_eq_zero.1 (Nat.le_zero.1 hn)
    subst this
    rfl
  | succ n ih =>
    intro p hn
    cases p with
    | nil => rfl
    | cons c t =>
      by_cases hy : yearAt (c :: t) = true
      · obtain ⟨u, t2, hx, hu⟩ := (yearAt_iff _).1 hy
        have hK : copyrightLit.length = 10 := rfl
        have hl : t2.length ≤ n := by
          have := congrArg List.length hx
          simp only [List.length_cons, List.length_append, hK, hu.1] at this hn
          omega
        rw [hx, List.append_assoc, replaceYearAux_year _ _ hu, replaceYearAux_year _ _ hu,
          ih t2 hl, List.append_assoc]
      · have hy2 : yearAt (c :: t ++ 'C' :: z) = false := by
          cases hh : yearAt (c :: t ++ 'C' :: z) with
          | false => rfl
          | true => exact absurd (yearAt_append_C (by simp) hh) hy
        simp only [Bool.not_eq_true] at hy
        rw [List.cons_append] at hy2 ⊢
        rw [replaceYearAux_cons_of_not hy2, replaceYearAux_cons_of_not hy,
          ih t (by simpa using hn), List.cons_append]

theorem replaceYearAux_short {u' : Bytes} (hl : u'.length < 4)
    (hd : ∀ c ∈ u', c.isDigit = true) :
    replaceYearAux 0 (copyrightLit ++ u') = copyrightLit ++ u' := by
  have hy : yearAt ('C' :: (copyrightLit.tail ++ u')) = false := by
    cases hh : yearAt ('C' :: (copyrightLit.tail ++ u')) with
    | false => rfl
    | true =>
      exfalso
      obtain ⟨u, t, hx, hu⟩ := (yearAt_iff _).1 hh
      have := congrArg List.length hx
      simp only [List.length_cons, List.length_append, hu.1] at this
      have hK : copyrightLit.length = 10 := rfl
      have hK2 : copyrightLit.tail.length = 9 := rfl
      omega
  have hC : 'C' ∉ copyrightLit.tail ++ u' := by
    intro h
    rcases List.mem_append.1 h with h | h
    · exact absurd h (by decide)
    · exact digit_ne (hd _ h) (by decide) rfl
  have e : copyrightLit ++ u' = 'C' :: (copyrightLit.tail ++ u') := by simp [copyrightLit]
  have e2 := replaceYearAux_lit (copyrightLit.tail ++ u') [] hC
  rw [List.append_nil] at e2
  rw [e, replaceYearAux_cons_of_not hy, e2]
  simp [replaceYearAux]


theorem headerMatches_iff (data ref : Bytes) :
    headerMatches data ref = true ↔
      ref.length ≤ data.length ∧ hasCopyrightYEAR (data.take ref.length) = false ∧
        replaceYear (data.take ref.length) = ref := by
  unfold headerMatches
  by_cases h1 : data.length < ref.length
  · simp only [h1, if_true, Bool.false_eq_true, false_iff]
    intro h
    omega
  · simp only [h1, if_false]
    cases h2 : hasCopyrightYEAR (data.take ref.length) with
    | true => simp
    | false => simp; omega

theorem not_suffix_of_ends (ref r : Bytes) (x : Char) (hr : ref = r ++ [x])
    (hx : x.isDigit = false) (ds : Bytes) (hne : ds ≠ []) (hd : ∀ c ∈ ds, c.isDigit = true) :
    ¬ (copyrightLit ++ ds) <:+ ref := by
  rintro ⟨q, hq⟩
  obtain ⟨d1, d2, rfl⟩ : ∃ d1 d2, ds = d1 ++ [d2] :=
    ⟨ds.dropLast, ds.getLast hne, (List.dropLast_append_getLast hne).symm⟩
  rw [hr, ← List.append_assoc, ← List.append_assoc] at hq
  have h2 := (List.append_inj' hq rfl).2
  simp only [List.cons.injEq, and_true] at h2
  exact digit_ne (hd d2 (by simp)) hx h2

/-- C3, amended: against a reference that does not end with `Copyright ` and
one to three digits, a passing file still passes when the four digits of an
occurrence of `Copyright <4 digits>` in it are replaced by four other digits. -/
theorem filePasses_year (extension : String) (ref a b u v : Bytes) (hu : IsYear u)
    (hv : IsYear v)
    (href : ∀ ds : Bytes, ds ≠ [] → ds.length < 4 → (∀ c ∈ ds, c.isDigit = true) →
      ¬ (copyrightLit ++ ds) <:+ ref)
    (h : filePasses extension (a ++ copyrightLit ++ u ++ b) ref = true) :
    filePasses extension (a ++ copyrightLit ++ v ++ b) ref = true := by
  have hYV : YearVariant (a ++ copyrightLit ++ u ++ b) (a ++ copyrightLit ++ v ++ b) := by
    have e : ∀ w : Bytes, a ++ copyrightLit ++ w ++ b = a ++ (copyrightLit ++ w ++ b) := by
      intro w; simp
    rw [e, e]
    exact yearVariant_append_left a (YearVariant.year hu hv (yearVariant_refl b))
  have hP := yearVariant_preprocess extension hYV
  rw [filePasses, headerMatches_iff] at h ⊢
  obtain ⟨h1, h2, h3⟩ := h
  rcases yearVariant_take hP ref.length with hT | ⟨p, u', hT, hne, hlt, hd⟩
  · refine ⟨by rw [← yearVariant_length_eq hP]; exact h1, ?_, ?_⟩
    · rw [← digitVariant_hasCopyrightYEAR (yearVariant_digitVariant hT)]; exact h2
    · rw [replaceYear, ← yearVariant_replaceYearAux _ (Nat.le_refl _) hT]; exact h3
  · exfalso
    apply href u' hne hlt hd
    have e : copyrightLit ++ u' = 'C' :: (copyrightLit.tail ++ u') := by simp [copyrightLit]
    rw [hT, replaceYear, e, replaceYearAux_append_C _ _ _ (Nat.le_refl _), ← e,
      replaceYearAux_short hlt hd] at h3
    exact ⟨_, h3⟩

theorem filePasses_year_witness :
    IsYear "2021".toList ∧ IsYear "1999".toList ∧
      filePasses "go"
        ([] ++ copyrightLit ++ "2021".toList ++ " The Foo Authors\n\npackage main\n".toList)
        "Copyright YEAR The Foo Authors\n".toList = true ∧
      filePasses "go"
        ([] ++ copyrightLit ++ "1999".toList ++ " The Foo Authors\n\npackage main\n".toList)
        "Copyright YEAR The Foo Authors\n".toList = true :=
  ⟨⟨rfl, by decide⟩, ⟨rfl, by decide⟩, by decide,
    filePasses_year "go" "Copyright YEAR The Foo Authors\n".toList []
      " The Foo Authors\n\npackage main\n".toList "2021".toList "1999".toList
      ⟨rfl, by decide⟩ ⟨rfl, by decide⟩
      (fun ds hne _ hd =>
        not_suffix_of_ends _ "Copyright YEAR The Foo Authors".toList '\n'
          (by decide) (by decide) ds hne hd)
      (by decide)⟩

/-- C3 as stated fails: against the reference `Copyright 20` the content
`Copyright 2019` passes (only its first twelve bytes are compared, and they
hold no four digits to normalise), and `Copyright 1999` fails. -/
theorem filePasses_year_counterexample :
    ¬ (∀ (extension : String) (ref a b u v : Bytes), IsYear u → IsYear v →
        filePasses extension (a ++ copyrightLit ++ u ++ b) ref = true →
          filePasses extension (a ++ copyrightLit ++ v ++ b) ref = true) := by
  intro h
  have := h "txt" "Copyright 20".toList [] [] "2019".toList "1999".toList
    ⟨rfl, by decide⟩ ⟨rfl, by decide⟩ (by decide)
  revert this
  decide


/-- Where `Copyright YEAR...` is split in front of a `C`, the split is at the
start or after the whole literal: the literal has no second `C`. -/
theorem copyrightYEAR_split {Y p Z : Bytes} (h : copyrightYEAR ++ Y = p ++ 'C' :: Z) :
    p = [] ∨ ∃ p2, p = copyrightYEAR ++ p2 ∧ Y = p2 ++ 'C' :: Z := by
  rcases List.append_eq_append_iff.1 h with ⟨a, ha, ha2⟩ | ⟨c, hc, hc2⟩
  · exact Or.inr ⟨a, ha, ha2⟩
  · cases c with
    | nil =>
      simp only [List.nil_append, List.append_nil] at hc hc2
      exact Or.inr ⟨[], by simp [hc], by simp [hc2]⟩
    | cons c0 c =>
      simp only [List.cons_append, List.cons.injEq] at hc2
      cases p with
      | nil => exact Or.inl rfl
      | cons p0 p =>
        exfalso
        have e : copyrightYEAR = 'C' :: copyrightYEAR.tail := rfl
        rw [e, List.cons_append] at hc
        simp only [List.cons.injEq] at hc
        have : 'C' ∈ copyrightYEAR.tail := by
          rw [hc.2, ← hc2.1]
          simp
        exact absurd this (by decide)

theorem isYear_head {u : Bytes} (hu : IsYear u) : ∃ c t, u = c :: t ∧ c.isDigit = true := by
  obtain ⟨hl, hd⟩ := hu
  match u, hl, hd with
  | c :: t, _, hd => exact ⟨c, t, rfl, hd c (List.mem_cons_self _ _)⟩

/-- Year normalisation leaves no `Copyright <4 digits>` behind. -/
theorem replaceYearAux_no_year :
    ∀ (n : Nat) (x p u s : Bytes), x.length ≤ n → IsYear u →
      replaceYearAux 0 x ≠ p ++ (copyrightLit ++ u) ++ s := by
  intro n
  induction n with
  | zero =>
    intro x p u s hn _ h
    have : x = [] := List.length_eq_zero.1 (Nat.le_zero.1 hn)
    subst this
    have := congrArg List.length h
    simp [replaceYearAux, copyrightLit] at this
    omega
  | succ n ih =>
    intro x p u s hn hu h
    have eK : copyrightLit ++ u = 'C' :: (copyrightLit.tail ++ u) := by simp [copyrightLit]
    cases x with
    | nil =>
      have := congrArg List.length h
      simp [replaceYearAux, copyrightLit] at this
      omega
    | cons c t =>
      by_cases hy : yearAt (c :: t) = true
      · obtain ⟨u1, t2, hx, hu1⟩ := (yearAt_iff _).1 hy
        have hK : copyrightLit.length = 10 := rfl
        have hl : t2.length ≤ n := by
          have := congrArg List.length hx
          simp only [List.length_cons, List.length_append, hK, hu1.1] at this hn
          omega
        rw [hx, replaceYearAux_year _ _ hu1, List.append_assoc, eK, List.cons_append] at h
        rcases copyrightYEAR_split h with rfl | ⟨p2, rfl, h2⟩
        · obtain ⟨c0, u', rfl, hc0⟩ := isYear_head hu
          simp only [copyrightYEAR, copyrightLit, String.toList, List.cons_append,
            List.nil_append, List.tail_cons, List.cons.injEq, true_and] at h
          rw [← h.1] at hc0
          exact absurd hc0 (by decide)
        · refine ih t2 p2 u s hl hu ?_
          rw [h2, eK]
          simp
      · simp only [Bool.not_eq_true] at hy
        rw [replaceYearAux_cons_of_not hy] at h
        cases p with
        | nil =>
          rw [List.nil_append, eK, List.cons_append] at h
          simp only [List.cons.injEq] at h
          have hp := prefix_of_replaceYearAux _ (isYear_C hu) t s h.2
          obtain ⟨r, hr⟩ := hp
          have : yearAt (c :: t) = true :=
            (yearAt_iff _).2 ⟨u, r, by rw [h.1, ← hr]; simp [copyrightLit], hu⟩
          rw [hy] at this
          exact absurd this (by decide)
        | cons p0 p =>
          simp only [List.cons_append, List.cons.injEq] at h
          exact ih t p u s (by simpa using hn) hu (by rw [h.2])


/-- A literal `Copyright YEAR` in the result of year normalisation, when the
input holds none, stands where the input has `Copyright <4 digits>`. -/
theorem replaceYearAux_origin :
    ∀ (n : Nat) (T a tail : Bytes), T.length ≤ n →
      replaceYearAux 0 T = a ++ copyrightYEAR ++ tail → ¬ copyrightYEAR <:+: T →
      ∃ a' u rest, T = a' ++ (copyrightLit ++ u) ++ rest ∧ IsYear u ∧
        replaceYearAux 0 rest = tail := by
  intro n
  induction n with
  | zero =>
    intro T a tail hn h _
    have : T = [] := List.length_eq_zero.1 (Nat.le_zero.1 hn)
    subst this
    have := congrArg List.length h
    simp [replaceYearAux, copyrightYEAR] at this
    omega
  | succ n ih =>
    intro T a tail hn h hno
    have eY : copyrightYEAR = 'C' :: copyrightYEAR.tail := rfl
    cases T with
    | nil =>
      have := congrArg List.length h
      simp [replaceYearAux, copyrightYEAR] at this
      omega
    | cons c t =>
      by_cases hy : yearAt (c :: t) = true
      · obtain ⟨u1, t2, hx, hu1⟩ := (yearAt_iff _).1 hy
        have hK : copyrightLit.length = 10 := rfl
        have hl : t2.length ≤ n := by
          have := congrArg List.length hx
          simp only [List.length_cons, List.length_append, hK, hu1.1] at this hn
          omega
        have eA : a ++ copyrightYEAR ++ tail = a ++ 'C' :: (copyrightYEAR.tail ++ tail) := by
          rw [List.append_assoc]; rfl
        have h' : copyrightYEAR ++ replaceYearAux 0 t2
            = a ++ 'C' :: (copyrightYEAR.tail ++ tail) := by
          rw [← replaceYearAux_year _ _ hu1, ← hx, h, eA]
        rcases copyrightYEAR_split h' with rfl | ⟨p2, rfl, h2⟩
        · rw [hx, replaceYearAux_year _ _ hu1, List.nil_append,
            List.append_cancel_left_eq] at h
          exact ⟨[], u1, t2, by rw [hx]; simp, hu1, h⟩
        · have hno2 : ¬ copyrightYEAR <:+: t2 := by
            intro hh
            apply hno
            rw [hx]
            exact hh.trans ⟨copyrightLit ++ u1, [], by simp⟩
          obtain ⟨a', u, rest, rfl, hu, hr⟩ := ih t2 p2 tail hl
            (by rw [h2, List.append_assoc]; rfl) hno2
          exact ⟨copyrightLit ++ u1 ++ a', u, rest, by rw [hx]; simp, hu, hr⟩
      · simp only [Bool.not_eq_true] at hy
        rw [replaceYearAux_cons_of_not hy] at h
        cases a with
        | nil =>
          exfalso
          rw [List.nil_append, eY, List.cons_append] at h
          simp only [List.cons.injEq] at h
          obtain ⟨r, hr⟩ := prefix_of_replaceYearAux _ (by decide) t tail h.2
          apply hno
          rw [h.1, ← hr]
          exact ⟨[], r, by rw [eY]; simp⟩
        | cons a0 a =>
          simp only [List.cons_append, List.cons.injEq] at h
          have hno2 : ¬ copyrightYEAR <:+: t := fun hh => hno (hh.trans (List.infix_cons
            (List.infix_refl _)))
          obtain ⟨a', u, rest, rfl, hu, hr⟩ := ih t a tail (by simpa using hn) h.2 hno2
          exact ⟨c :: a', u, rest, by simp, hu, hr⟩

theorem replaceYearAux_head {rest b' : Bytes} {c0 : Char}
    (h : replaceYearAux 0 rest = c0 :: b') : ∃ r', rest = c0 :: r' := by
  cases rest with
  | nil => simp [replaceYearAux] at h
  | cons x r' =>
    by_cases hy : yearAt (x :: r') = true
    · rw [replaceYearAux, if_pos hy] at h
      have hx := yearAt_head hy
      simp only [copyrightYEAR, String.toList, List.cons_append, List.cons.injEq] at h
      exact ⟨r', by rw [hx, h.1]⟩
    · simp only [Bool.not_eq_true] at hy
      rw [replaceYearAux_cons_of_not hy] at h
      simp only [List.cons.injEq] at h
      exact ⟨r', by rw [h.1]⟩


theorem deleteAll_length_le (m : Bytes → Option Nat) (x : Bytes) :
    ∀ b k, (deleteAll m b k x).length ≤ x.length := by
  induction x with
  | nil => intro b k; simp [deleteAll]
  | cons c t ih =>
    intro b k
    cases k with
    | succ k =>
      rw [deleteAll]
      exact Nat.le_succ_of_le (ih _ _)
    | zero =>
      rw [deleteAll]
      split
      · exact Nat.le_succ_of_le (ih _ _)
      · simpa using ih _ _

theorem mem_deleteAll (m : Bytes → Option Nat) (a : Char) (x : Bytes) :
    ∀ b k, a ∈ deleteAll m b k x → a ∈ x := by
  induction x with
  | nil => intro b k h; simp [deleteAll] at h
  | cons c t ih =>
    intro b k h
    cases k with
    | succ k =>
      rw [deleteAll] at h
      exact List.mem_cons_of_mem _ (ih _ _ h)
    | zero =>
      rw [deleteAll] at h
      split at h
      · exact List.mem_cons_of_mem _ (ih _ _ h)
      · rcases List.mem_cons.1 h with h | h
        · rw [h]; exact List.mem_cons_self _ _
        · exact List.mem_cons_of_mem _ (ih _ _ h)

theorem preprocess_length_le (extension : String) (d : Bytes) :
    (preprocess extension d).length ≤ d.length := by
  have h1 : (stripCR d).length ≤ d.length := List.length_filter_le _ _
  unfold preprocess
  simp only
  have h2 : (if extension = "go" then stripBuildTags (stripCR d) else stripCR d).length
      ≤ d.length := by
    split
    · exact (deleteAll_length_le _ _ _ _).trans h1
    · exact h1
  split
  · exact (deleteAll_length_le _ _ _ _).trans h2
  · exact h2

theorem not_cr_mem_preprocess (extension : String) (d : Bytes) :
    '\r' ∉ preprocess extension d := by
  intro h
  unfold preprocess at h
  simp only at h
  have h2 : '\r' ∈ (if extension = "go" then stripBuildTags (stripCR d) else stripCR d) := by
    split at h
    · exact mem_deleteAll _ _ _ _ _ h
    · exact h
  split at h2
  · exact not_mem_stripCR d (mem_deleteAll _ _ _ _ _ h2)
  · exact not_mem_stripCR d h2

theorem mem_replaceYearAux (a : Char) :
    ∀ (n : Nat) (x : Bytes), x.length ≤ n → a ∈ replaceYearAux 0 x →
      a ∈ x ∨ a ∈ copyrightYEAR := by
  intro n
  induction n with
  | zero =>
    intro x hn h
    have : x = [] := List.length_eq_zero.1 (Nat.le_zero.1 hn)
    subst this
    simp [replaceYearAux] at h
  | succ n ih =>
    intro x hn h
    cases x with
    | nil => simp [replaceYearAux] at h
    | cons c t =>
      by_cases hy : yearAt (c :: t) = true
      · obtain ⟨u1, t2, hx, hu1⟩ := (yearAt_iff _).1 hy
        have hK : copyrightLit.length = 10 := rfl
        have hl : t2.length ≤ n := by
          have := congrArg List.length hx
          simp only [List.length_cons, List.length_append, hK, hu1.1] at this hn
          omega
        rw [hx, replaceYearAux_year _ _ hu1] at h
        rcases List.mem_append.1 h with h | h
        · exact Or.inr h
        · rcases ih t2 hl h with h | h
          · left; rw [hx]; exact List.mem_append_right _ h
          · exact Or.inr h
      · simp only [Bool.not_eq_true] at hy
        rw [replaceYearAux_cons_of_not hy] at h
        rcases List.mem_cons.1 h with h | h
        · left; rw [h]; exact List.mem_cons_self _ _
        · rcases ih t (by simpa using hn) h with h | h
          · exact Or.inl (List.mem_cons_of_mem _ h)
          · exact Or.inr h


theorem split_at_C {q Y p Z : Bytes} (hq : 'C' ∉ q) (h : ('C' :: q) ++ Y = p ++ 'C' :: Z) :
    p = [] ∨ ∃ p2, p = ('C' :: q) ++ p2 ∧ Y = p2 ++ 'C' :: Z := by
  rcases List.append_eq_append_iff.1 h with ⟨a, ha, ha2⟩ | ⟨c, hc, hc2⟩
  · exact Or.inr ⟨a, ha, ha2⟩
  · cases c with
    | nil =>
      simp only [List.nil_append, List.append_nil] at hc hc2
      exact Or.inr ⟨[], by simp [hc], by simp [hc2]⟩
    | cons c0 c =>
      simp only [List.cons_append, List.cons.injEq] at hc2
      cases p with
      | nil => exact Or.inl rfl
      | cons p0 p =>
        exfalso
        rw [List.cons_append] at hc
        simp only [List.cons.injEq] at hc
        apply hq
        rw [hc.2, ← hc2.1]
        simp

theorem prefix_of_deleteAll_snoc (m : Bytes → Option Nat) (X : Char) (w0 : Bytes)
    (h : '\n' ∉ w0) :
    ∀ t, (w0 ++ [X]) <+: deleteAll m false 0 t → (w0 ++ [X]) <+: t := by
  induction w0 with
  | nil =>
    intro t ht
    cases t with
    | nil => simp [deleteAll] at ht
    | cons d t =>
      simp only [deleteAll, Bool.false_eq_true, if_false, List.nil_append] at ht ⊢
      obtain ⟨rfl, _⟩ := (List.cons_prefix_cons).1 ht
      exact (List.cons_prefix_cons).2 ⟨rfl, List.nil_prefix⟩
  | cons a l ih =>
    intro t ht
    simp only [List.mem_cons, not_or] at h
    cases t with
    | nil => simp [deleteAll] at ht
    | cons d t =>
      simp only [deleteAll, Bool.false_eq_true, if_false, List.cons_append] at ht ⊢
      obtain ⟨rfl, h3⟩ := (List.cons_prefix_cons).1 ht
      have hd : decide (a = '\n') = false := by simpa using (fun e => h.1 (Eq.symm e))
      rw [hd] at h3
      exact (List.cons_prefix_cons).2 ⟨rfl, ih h.2 t h3⟩

/-- A deleted match starts at the start of a line and ends behind a newline, so
a string with a newline at most at its end that occurs in the output of
`deleteAll` is not put together across a deletion: it occurs in the input. -/
theorem infix_of_deleteAll (m : Bytes → Option Nat)
    (hm : ∀ x n, m x = some n → ∃ w r, x = w ++ '\n' :: r ∧ n = w.length + 1)
    (w0 : Bytes) (X : Char) (h0 : '\n' ∉ w0) :
    ∀ (k : Nat) (F : Bytes) (b : Bool), F.length ≤ k →
      (w0 ++ [X]) <:+: deleteAll m b 0 F → (w0 ++ [X]) <:+: F := by
  intro k
  induction k with
  | zero =>
    intro F b hk h
    have : F = [] := List.length_eq_zero.1 (Nat.le_zero.1 hk)
    subst this
    simp [deleteAll] at h
  | succ k ih =>
    intro F b hk h
    cases F with
    | nil => simp [deleteAll] at h
    | cons c t =>
      have hk' : t.length ≤ k := by simpa using hk
      by_cases he : b = false ∨ m (c :: t) = none ∨ m (c :: t) = some 0
      · rw [deleteAll_emit m b c t he] at h
        rcases List.infix_cons_iff.1 h with hp | hi
        · cases w0 with
          | nil =>
            rw [List.nil_append] at hp ⊢
            obtain ⟨rfl, _⟩ := (List.cons_prefix_cons).1 hp
            exact ((List.cons_prefix_cons).2 ⟨rfl, List.nil_prefix⟩).isInfix
          | cons a l =>
            simp only [List.mem_cons, not_or] at h0
            rw [List.cons_append] at hp ⊢
            obtain ⟨rfl, h3⟩ := (List.cons_prefix_cons).1 hp
            have hd : decide (a = '\n') = false := by
              simpa using (fun e => h0.1 (Eq.symm e))
            rw [hd] at h3
            exact ((List.cons_prefix_cons).2
              ⟨rfl, prefix_of_deleteAll_snoc m X l h0.2 t h3⟩).isInfix
        · exact (ih t _ hk' hi).trans (List.suffix_cons c t).isInfix
      · have hb : b = true := by
          cases b
          · exact absurd (Or.inl rfl) he
          · rfl
        subst hb
        obtain ⟨n, hn⟩ : ∃ n, m (c :: t) = some n := by
          cases hmc : m (c :: t) with
          | none => exact absurd (Or.inr (Or.inl hmc)) he
          | some n => exact ⟨n, rfl⟩
        obtain ⟨w, r, hx, hnn⟩ := hm _ _ hn
        rw [deleteAll_drop m hn hx hnn] at h
        have hr : r.length ≤ k := by
          have := congrArg List.length hx
          simp only [List.length_cons, List.length_append] at this
          omega
        have h5 := ih r true hr h
        rw [hx]
        exact h5.trans ⟨w ++ ['\n'], [], by simp⟩

theorem infix_of_preprocess (extension : String) (d w0 : Bytes) (X : Char) (h0 : '\n' ∉ w0)
    (h : (w0 ++ [X]) <:+: preprocess extension d) : (w0 ++ [X]) <:+: stripCR d := by
  unfold preprocess at h
  simp only at h
  by_cases hs : extension = "sh"
  · have hg : ¬ extension = "go" := by rw [hs]; decide
    rw [if_pos hs, if_neg hg] at h
    exact infix_of_deleteAll shebangAt shebangAt_ends w0 X h0 _ _ true (Nat.le_refl _) h
  · rw [if_neg hs] at h
    by_cases hg : extension = "go"
    · rw [if_pos hg] at h
      exact infix_of_deleteAll buildTagsAt (fun x n hx => buildBlockLen_ends _ x n hx)
        w0 X h0 _ _ true (Nat.le_refl _) h
    · rw [if_neg hg] at h
      exact h

/-- An occurrence of `Copyright <4 digits>` and a further byte `c0` in
`a ++ Copyright <digits> ++ b`, where there are more than four digits and `c0`
is not a digit, lies within `a` or within `b`. -/
theorem year_infix_cases {a ds b u t s : Bytes} {c0 : Char} (hu : IsYear u)
    (hd : ∀ c ∈ ds, c.isDigit = true) (hl : 4 < ds.length) (hc0 : c0.isDigit = false)
    (h : a ++ (copyrightLit ++ ds ++ b) = s ++ ((copyrightLit ++ u) ++ c0 :: t)) :
    (copyrightLit ++ u) <:+: a ∨ (copyrightLit ++ u) <:+: b := by
  have eL : copyrightLit = 'C' :: copyrightLit.tail := rfl
  have hq1 : 'C' ∉ copyrightLit.tail ++ u := isYear_C hu
  have hq2 : 'C' ∉ copyrightLit.tail ++ ds := by
    intro hC
    rcases List.mem_append.1 hC with hC | hC
    · exact absurd hC (by decide)
    · exact absurd (hd _ hC) (by decide)
  -- the occurrence cannot start exactly at the literal of the file
  have hstart : ¬ ∃ t', copyrightLit ++ ds ++ b = (copyrightLit ++ u) ++ c0 :: t' := by
    rintro ⟨t', e⟩
    rw [List.append_assoc, List.append_assoc, List.append_cancel_left_eq] at e
    rcases List.append_eq_append_iff.1 e with ⟨a', ha, _⟩ | ⟨c', hc, _⟩
    · have := congrArg List.length ha
      rw [List.length_append, hu.1] at this
      omega
    · cases c' with
      | nil =>
        have := congrArg List.length hc
        rw [List.append_nil, hu.1] at this
        omega
      | cons x c' =>
        have hx : u.length = 4 := hu.1
        have : ds = u ++ x :: c' := hc
        have e2 : x = c0 := by
          have h3 : ds ++ b = u ++ (x :: (c' ++ b)) := by rw [this]; simp
          rw [h3] at e
          have h4 := List.append_cancel_left e
          simp only [List.cons.injEq] at h4
          exact h4.1
        subst e2
        have : x ∈ ds := by rw [this]; simp
        exact digit_ne (hd _ this) hc0 rfl
  rcases List.append_eq_append_iff.1 h with ⟨a', _, ha2⟩ | ⟨c', hc, hc2⟩
  · -- the occurrence starts at or after the literal
    have e1 : ('C' :: (copyrightLit.tail ++ ds)) ++ b
        = a' ++ 'C' :: (copyrightLit.tail ++ u ++ c0 :: t) := by
      rw [← List.cons_append, ← List.cons_append, ← eL, ha2]
      simp [copyrightLit]
    rcases split_at_C hq2 e1 with rfl | ⟨p2, _, hb⟩
    · exfalso
      rw [List.nil_append] at ha2
      exact hstart ⟨t, ha2⟩
    · right
      refine ⟨p2, c0 :: t, ?_⟩
      rw [hb]
      simp [copyrightLit]
  · -- the occurrence starts in `a`
    have e1 : ('C' :: (copyrightLit.tail ++ u)) ++ (c0 :: t)
        = c' ++ 'C' :: (copyrightLit.tail ++ ds ++ b) := by
      rw [← List.cons_append, ← eL, hc2]
      simp [copyrightLit]
    rcases split_at_C hq1 e1 with rfl | ⟨p2, hp, _⟩
    · exfalso
      rw [List.nil_append] at hc2
      exact hstart ⟨t, hc2.symm⟩
    · left
      refine ⟨s, p2, ?_⟩
      rw [hc, hp]
      simp [copyrightLit]

/-- C4, amended: a file that is the reference with `YEAR` replaced by fewer than
four digits fails, and one with more than four digits fails provided the byte
after `Copyright YEAR` in the reference is not a digit. -/
theorem filePasses_malformed_year (extension : String) (a b ds : Bytes)
    (hd : ∀ c ∈ ds, c.isDigit = true)
    (hlen : ds.length < 4 ∨ (4 < ds.length ∧ ∃ c0 b', b = c0 :: b' ∧ c0.isDigit = false)) :
    filePasses extension (a ++ copyrightLit ++ ds ++ b) (a ++ copyrightYEAR ++ b) = false := by
  rcases hlen with hl | ⟨hl, c0, b', rfl, hc0⟩
  · have h1 := preprocess_length_le extension (a ++ copyrightLit ++ ds ++ b)
    have h2 : (preprocess extension (a ++ copyrightLit ++ ds ++ b)).length
        < (a ++ copyrightYEAR ++ b).length := by
      simp only [List.length_append] at h1 ⊢
      have e1 : copyrightLit.length = 10 := rfl
      have e2 : copyrightYEAR.length = 14 := rfl
      omega
    rw [filePasses, headerMatches, if_pos h2]
  · cases hf : filePasses extension (a ++ copyrightLit ++ ds ++ c0 :: b')
        (a ++ copyrightYEAR ++ c0 :: b') with
    | false => rfl
    | true =>
      exfalso
      rw [filePasses, headerMatches_iff] at hf
      obtain ⟨_, hY, hR⟩ := hf
      rw [replaceYear] at hR
      have hnY : ¬ copyrightYEAR <:+:
          (preprocess extension (a ++ copyrightLit ++ ds ++ c0 :: b')).take
            (a ++ copyrightYEAR ++ c0 :: b').length := by
        rw [← hasCopyrightYEAR_iff, hY]
        decide
      have hcr : '\r' ∉ a ++ copyrightYEAR ++ c0 :: b' := by
        intro hmem
        rw [← hR] at hmem
        rcases mem_replaceYearAux '\r' _ _ (Nat.le_refl _) hmem with h1 | h1
        · exact not_cr_mem_preprocess _ _ (List.mem_of_mem_take h1)
        · exact absurd h1 (by decide)
      have hra : stripCR a = a := stripCR_of_not_mem (fun h => hcr (by simp [h]))
      have hrb : stripCR (c0 :: b') = c0 :: b' :=
        stripCR_of_not_mem (fun h => hcr (List.mem_append_right _ h))
      have hrd : stripCR ds = ds :=
        stripCR_of_not_mem (fun h => absurd (hd _ h) (by decide))
      have hrl : stripCR copyrightLit = copyrightLit := by decide
      obtain ⟨a', u, rest, hT, hu, hrest⟩ :=
        replaceYearAux_origin _ _ a (c0 :: b') (Nat.le_refl _) hR hnY
      obtain ⟨r', rfl⟩ := replaceYearAux_head hrest
      have hw : ((copyrightLit ++ u) ++ [c0]) <:+:
          preprocess extension (a ++ copyrightLit ++ ds ++ c0 :: b') := by
        have h1 : ((copyrightLit ++ u) ++ [c0]) <:+:
            (preprocess extension (a ++ copyrightLit ++ ds ++ c0 :: b')).take
              (a ++ copyrightYEAR ++ c0 :: b').length := ⟨a', r', by rw [hT]; simp⟩
        exact h1.trans (List.take_prefix _ _).isInfix
      have hw2 := infix_of_preprocess extension _ _ c0 (isYear_nl hu) hw
      rw [stripCR_append, stripCR_append, stripCR_append, hra, hrb, hrd, hrl] at hw2
      obtain ⟨s, t, e⟩ := hw2
      have e2 : a ++ (copyrightLit ++ ds ++ c0 :: b')
          = s ++ ((copyrightLit ++ u) ++ c0 :: t) := by
        calc a ++ (copyrightLit ++ ds ++ c0 :: b')
            = a ++ copyrightLit ++ ds ++ c0 :: b' := by simp
          _ = s ++ (copyrightLit ++ u ++ [c0]) ++ t := e.symm
          _ = s ++ ((copyrightLit ++ u) ++ c0 :: t) := by simp
      rcases year_infix_cases hu hd hl hc0 e2 with ⟨p, q, e1⟩ | ⟨p, q, e1⟩
      · have h9 : a ++ copyrightYEAR ++ c0 :: b'
            = p ++ (copyrightLit ++ u) ++ (q ++ copyrightYEAR ++ c0 :: b') := by
          rw [← e1]
          simp
        exact replaceYearAux_no_year _ _ p u (q ++ copyrightYEAR ++ c0 :: b')
          (Nat.le_refl _) hu (hR.trans h9)
      · have h9 : a ++ copyrightYEAR ++ c0 :: b'
            = (a ++ copyrightYEAR ++ p) ++ (copyrightLit ++ u) ++ q := by
          rw [← e1]
          simp
        exact replaceYearAux_no_year _ _ (a ++ copyrightYEAR ++ p) u q
          (Nat.le_refl _) hu (hR.trans h9)

theorem filePasses_malformed_year_witness :
    (∀ c ∈ "20190".toList, c.isDigit = true) ∧
      filePasses "go" ("// ".toList ++ copyrightLit ++ "20190".toList
          ++ " The Foo Authors\n".toList)
        ("// ".toList ++ copyrightYEAR ++ " The Foo Authors\n".toList) = false :=
  ⟨by decide, filePasses_malformed_year "go" _ _ _ (by decide)
    (Or.inr ⟨by decide, ' ', "The Foo Authors\n".toList, rfl, by decide⟩)⟩

/-- C4 as stated fails: the reference `// Copyright YEAR` ends with the
placeholder, and the file `// Copyright 20190` is cut to the length of the
reference before the year is normalised; the cut leaves `// Copyright 2019`,
which passes. -/
theorem filePasses_malformed_year_counterexample :
    ¬ (∀ (extension : String) (a b ds : Bytes), (∀ c ∈ ds, c.isDigit = true) →
        ds.length ≠ 4 →
        filePasses extension (a ++ copyrightLit ++ ds ++ b) (a ++ copyrightYEAR ++ b)
          = false) := by
  intro h
  have := h "go" "// ".toList [] "20190".toList (by decide) (by decide)
  revert this
  decide

/-! ## Build-tag stripping is idempotent -/

theorem deleteAll_line_inv (m : Bytes → Option Nat) (p x Y : Bytes) (hp : '\n' ∉ p)
    (h : deleteAll m false 0 x = (p ++ ['\n']) ++ Y) :
    ∃ x', x = p ++ '\n' :: x' ∧ deleteAll m true 0 x' = Y := by
  have h1 : (p ++ ['\n']) <+: deleteAll m false 0 x := ⟨Y, h.symm⟩
  obtain ⟨x', rfl⟩ := prefix_of_deleteAll_snoc m '\n' p hp x h1
  refine ⟨x', by simp, ?_⟩
  rw [List.append_assoc, deleteAll_mid m p _ hp, List.append_assoc] at h
  have h2 := List.append_cancel_left h
  rw [List.singleton_append, deleteAll_emit m false '\n' x' (Or.inl rfl)] at h2
  simpa using h2

theorem deleteAll_bol (m : Bytes → Option Nat) (x : Bytes) (h : m x = none) :
    deleteAll m true 0 x = deleteAll m false 0 x := by
  cases x with
  | nil => simp [deleteAll]
  | cons c t =>
    rw [deleteAll_emit m true c t (Or.inr (Or.inl h)), deleteAll_emit m false c t (Or.inl rfl)]

theorem buildBlockLen_nil (f : Nat) : buildBlockLen f [] = none := by
  cases f with
  | zero => rfl
  | succ f =>
    have : buildLineLen [] = none := by decide
    simp [buildBlockLen, this]

/-- A build-tag line in front of a block match is a block match. -/
theorem buildTagsAt_line_block (s x : Bytes) (n : Nat) (hs : '\n' ∉ s)
    (h : buildTagsAt x = some n) : ∃ k, buildTagsAt (buildTagLine s ++ x) = some k := by
  have h1 : buildBlockLen (x.length + 1) (buildTagLine s ++ x)
      = some ((buildTagLine s).length + n) := by
    rw [buildBlockLen, buildLineLen_line _ _ hs]
    simp only [List.drop_left]
    rw [buildTagsAt] at h
    rw [h]
  have h2 := (buildBlockLen_append_some [] _ _ _ h1).2 (buildTagLine s ++ x).length (by
    have : 1 ≤ (buildTagLine s).length := by simp [buildTagLine]; omega
    rw [List.length_append]
    omega)
  rw [List.append_nil] at h2
  exact ⟨_, h2⟩

/-- A build-tag line in front of a blank line is a block match. -/
theorem buildTagsAt_line_blank (s x : Bytes) (j : Nat) (hs : '\n' ∉ s)
    (h : blankLen x = some j) : ∃ k, buildTagsAt (buildTagLine s ++ x) = some k := by
  have h0 : buildBlockLen x.length x = none := by
    cases hx : x.length with
    | zero => rfl
    | succ f =>
      have h3 := (blankLen_append_some [] h).2.1
      rw [List.append_nil] at h3
      simp [buildBlockLen, h3]
  have h1 : buildBlockLen (x.length + 1) (buildTagLine s ++ x)
      = some ((buildTagLine s).length + j) := by
    rw [buildBlockLen, buildLineLen_line _ _ hs]
    simp only [List.drop_left]
    rw [h0, h]
    rfl
  have h2 := (buildBlockLen_append_some [] _ _ _ h1).2 (buildTagLine s ++ x).length (by
    have : 1 ≤ (buildTagLine s).length := by simp [buildTagLine]; omega
    rw [List.length_append]
    omega)
  rw [List.append_nil] at h2
  exact ⟨_, h2⟩

theorem blankLen_of_deleteAll (m : Bytes → Option Nat) (x : Bytes) (j : Nat)
    (h : blankLen (deleteAll m false 0 x) = some j) : blankLen x = some j := by
  generalize hy : deleteAll m false 0 x = y at h
  unfold blankLen at h
  split at h
  · rename_i t
    have h1 : (['\r'] ++ ['\n']) <+: deleteAll m false 0 x := by
      rw [hy]
      exact ⟨t, by simp⟩
    obtain ⟨t', rfl⟩ := prefix_of_deleteAll_snoc m '\n' ['\r'] (by decide) x h1
    simpa [blankLen] using h
  · rename_i t
    have h1 : ([] ++ ['\n']) <+: deleteAll m false 0 x := by
      rw [hy]
      exact ⟨t, by simp⟩
    obtain ⟨t', rfl⟩ := prefix_of_deleteAll_snoc m '\n' [] (by simp) x h1
    simpa [blankLen] using h
  · exact absurd h (by simp)

/-- The key step: where no block starts in the input, none starts in the
output of the deletion either. -/
theorem buildBlockLen_of_deleteAll :
    ∀ (f : Nat) (x : Bytes) (n : Nat),
      buildBlockLen f (deleteAll buildTagsAt false 0 x) = some n →
      ∃ k, buildTagsAt x = some k := by
  intro f
  induction f with
  | zero => intro x n h; simp [buildBlockLen] at h
  | succ f ih =>
    intro x n h
    rw [buildBlockLen] at h
    cases h1 : buildLineLen (deleteAll buildTagsAt false 0 x) with
    | none => simp [h1] at h
    | some n1 =>
      obtain ⟨s, rest, e, hs, hn1⟩ := buildLineLen_some h1
      have hp : '\n' ∉ buildLit ++ s := by
        intro hm
        rcases List.mem_append.1 hm with hm | hm
        · exact absurd hm (by decide)
        · exact hs hm
      have e2 : deleteAll buildTagsAt false 0 x = ((buildLit ++ s) ++ ['\n']) ++ rest := by
        rw [e, buildTagLine]
      obtain ⟨x', rfl, hx'⟩ := deleteAll_line_inv buildTagsAt _ x rest hp e2
      have e3 : (buildLit ++ s) ++ '\n' :: x' = buildTagLine s ++ x' := by
        simp [buildTagLine]
      rw [e3]
      -- either a block starts at `x'`, or `x'` is scanned like a line interior
      cases hx : buildTagsAt x' with
      | some k => exact buildTagsAt_line_block s x' k hs hx
      | none =>
        rw [deleteAll_bol _ _ hx] at hx'
        rw [h1, e, hn1] at h
        simp only [List.drop_left] at h
        rw [← hx'] at h
        cases h2 : buildBlockLen f (deleteAll buildTagsAt false 0 x') with
        | some m =>
          obtain ⟨k, hk⟩ := ih x' m h2
          rw [hx] at hk
          exact absurd hk (by simp)
        | none =>
          rw [h2] at h
          cases h3 : blankLen (deleteAll buildTagsAt false 0 x') with
          | none => simp [h3] at h
          | some j =>
            exact buildTagsAt_line_blank s x' j hs (blankLen_of_deleteAll _ _ _ h3)

theorem buildTagsAt_pos {x : Bytes} {n : Nat} (h : buildTagsAt x = some n) : n ≠ 0 := by
  obtain ⟨w, r, _, hn⟩ := buildBlockLen_ends _ _ _ h
  omega

theorem deleteAll_buildTagsAt_idem :
    ∀ (k : Nat) (x : Bytes) (b : Bool), x.length ≤ k →
      deleteAll buildTagsAt b 0 (deleteAll buildTagsAt b 0 x) = deleteAll buildTagsAt b 0 x := by
  intro k
  induction k with
  | zero =>
    intro x b hk
    have : x = [] := List.length_eq_zero.1 (Nat.le_zero.1 hk)
    subst this
    simp [deleteAll]
  | succ k ih =>
    intro x b hk
    cases x with
    | nil => simp [deleteAll]
    | cons c t =>
      have hk' : t.length ≤ k := by simpa using hk
      by_cases he : b = false ∨ buildTagsAt (c :: t) = none
      · have he' : b = false ∨ buildTagsAt (c :: t) = none ∨ buildTagsAt (c :: t) = some 0 := by
          rcases he with h | h
          · exact Or.inl h
          · exact Or.inr (Or.inl h)
        rw [deleteAll_emit _ b c t he']
        have he2 : b = false ∨
            buildTagsAt (c :: deleteAll buildTagsAt (decide (c = '\n')) 0 t) = none ∨
            buildTagsAt (c :: deleteAll buildTagsAt (decide (c = '\n')) 0 t) = some 0 := by
          rcases he with h | h
          · exact Or.inl h
          · right; left
            cases h4 : buildTagsAt (c :: deleteAll buildTagsAt (decide (c = '\n')) 0 t) with
            | none => rfl
            | some n =>
              exfalso
              rw [← deleteAll_emit _ false c t (Or.inl rfl)] at h4
              obtain ⟨k', hk'⟩ := buildBlockLen_of_deleteAll _ _ _ h4
              rw [h] at hk'
              exact absurd hk' (by simp)
        rw [deleteAll_emit _ b c _ he2, ih t _ hk']
      · have hb : b = true := by
          cases b
          · exact absurd (Or.inl rfl) he
          · rfl
        subst hb
        obtain ⟨n, hn⟩ : ∃ n, buildTagsAt (c :: t) = some n := by
          cases hmc : buildTagsAt (c :: t) with
          | none => exact absurd (Or.inr hmc) he
          | some n => exact ⟨n, rfl⟩
        obtain ⟨w, r, hx, hnn⟩ := buildBlockLen_ends _ _ _ hn
        rw [deleteAll_drop buildTagsAt hn hx hnn]
        have hr : r.length ≤ k := by
          have := congrArg List.length hx
          simp only [List.length_cons, List.length_append] at this
          omega
        exact ih r true hr

/-- C11: stripping the build tags of a Go file twice is the same as stripping
them once. -/
theorem stripBuildTags_idempotent (d : Bytes) :
    stripBuildTags (stripBuildTags d) = stripBuildTags d :=
  deleteAll_buildTagsAt_idem d.length d true (Nat.le_refl _)

/-! ## The reference table and the file list -/

/-- C12, the divergence: with the boilerplate directory
`/src/k8s.io/minikube/hack/boilerplate`, whose path has a dot, the reference
`boilerplate.go.txt` is stored under the key `io/minikube/hack/boilerplate/boilerplate`,
the second piece of the whole path, and not under `go`. -/
theorem getRefs_dotted_dir :
    getRefs (fun _ => ["/src/k8s.io/minikube/hack/boilerplate/boilerplate.go.txt".toList])
        (fun _ => some "// Copyright YEAR\n".toList)
        "/src/k8s.io/minikube/hack/boilerplate".toList
      = some [("io/minikube/hack/boilerplate/boilerplate".toList,
          "// Copyright YEAR\n".toList)] := by
  decide

theorem char_toLower_toLower (c : Char) : c.toLower.toLower = c.toLower := by
  by_cases h : c.toNat ≥ 65 ∧ c.toNat ≤ 90
  · have hc : c = Char.ofNat c.toNat := (Char.ofNat_toNat c).symm
    obtain ⟨h1, h2⟩ := h
    generalize c.toNat = n at hc h1 h2
    subst hc
    interval_cases n <;> decide
  · have : c.toLower = c := by
      unfold Char.toLower
      simp only
      rw [if_neg h]
    rw [this, this]

theorem toLower_toLower (s : Str) : toLower (toLower s) = toLower s := by
  simp [toLower, char_toLower_toLower]

theorem getFileExtension_lower (filename : Str) :
    toLower (getFileExtension filename) = getFileExtension filename := by
  simp [getFileExtension, toLower_toLower]

theorem foldl_walkFn (extensions : Refs) (es : List Entry) :
    ∀ out, es.foldl (walkFn extensions) out
      = out ++ (es.filter (fun e => !e.isDir && !skippedPaths (dir e.path) &&
          decide (mapGet extensions (getFileExtension e.path) ≠ []))).map Entry.path := by
  induction es with
  | nil => intro out; simp
  | cons e es ih =>
    intro out
    rw [List.foldl_cons, ih, walkFn, getFileExtension_lower]
    by_cases h1 : (!e.isDir && !skippedPaths (dir e.path)) = true
    · by_cases h2 : mapGet extensions (getFileExtension e.path) ≠ []
      · simp [h1, h2, List.filter_cons]
      · simp [h1, h2, List.filter_cons]
    · simp [h1, List.filter_cons]

/-- C13, amended: on an empty explicit list, `getFileList` returns the paths of
the visited entries that are not directories, whose directory does not match
the exclusion pattern and whose extension has a reference that is not nil (not
empty), in the order of the walk; no returned path has a directory that matches
the pattern. -/
theorem getFileList_walk (tree : Tree) (rootDir : Str) (extensions : Refs) :
    getFileList tree rootDir extensions []
        = ((walk rootDir tree).filter (fun e => !e.isDir && !skippedPaths (dir e.path) &&
            decide (mapGet extensions (getFileExtension e.path) ≠ []))).map Entry.path ∧
      ∀ p ∈ getFileList tree rootDir extensions [], skippedPaths (dir p) = false := by
  have h : getFileList tree rootDir extensions []
      = ((walk rootDir tree).filter (fun e => !e.isDir && !skippedPaths (dir e.path) &&
          decide (mapGet extensions (getFileExtension e.path) ≠ []))).map Entry.path := by
    rw [getFileList, if_pos (by rfl), foldl_walkFn, List.nil_append]
  refine ⟨h, ?_⟩
  intro p hp
  rw [h, List.mem_map] at hp
  obtain ⟨e, he, rfl⟩ := hp
  have h2 := (List.mem_filter.1 he).2
  simp only [Bool.and_eq_true, Bool.not_eq_true', decide_eq_true_eq] at h2
  exact h2.1.2

/-- C13 as stated fails: an empty reference file `boilerplate.py.txt` is stored
by `getRefs` under the key `py` with a nil value, so the extension `py` has an
entry in the table; the test of line 135 is `!= nil`, and the walk leaves
`a.py` out all the same. -/
theorem getFileList_walk_counterexample :
    getRefs
        (fun _ => ["hack/boilerplate/boilerplate.go.txt".toList,
          "hack/boilerplate/boilerplate.py.txt".toList])
        (fun p => if p = "hack/boilerplate/boilerplate.py.txt".toList then some []
          else some "// Copyright YEAR\n".toList)
        "hack/boilerplate".toList
      = some [("py".toList, []), ("go".toList, "// Copyright YEAR\n".toList)] ∧
    ¬ (∀ (tree : Tree) (rootDir : Str) (extensions : Refs),
        getFileList tree rootDir extensions []
          = ((walk rootDir tree).filter (fun e => !e.isDir && !skippedPaths (dir e.path) &&
              decide (getFileExtension e.path ∈ extensions.map Prod.fst))).map Entry.path) := by
  refine ⟨by decide, fun h => ?_⟩
  have h1 := h (.dir (.cons "a.py".toList .file (.cons "b.go".toList .file .nil))) ".".toList
    [("py".toList, []), ("go".toList, "// Copyright YEAR\n".toList)]
  revert h1
  decide

/-- C14, the divergence: the files `cluster/env.sh` and
`test/e2e/generated/bindata.go`, whose paths match the exclusion pattern, are
returned by the walk: the pattern is tried on their directories, `cluster` and
`test/e2e/generated`, which do not match. -/
theorem getFileList_named_files :
    skippedPaths "cluster/env.sh".toList = true ∧
      skippedPaths "test/e2e/generated/bindata.go".toList = true ∧
      getFileList
          (.dir (.cons "cluster".toList (.dir (.cons "env.sh".toList .file .nil))
            (.cons "test".toList (.dir (.cons "e2e".toList (.dir (.cons "generated".toList
              (.dir (.cons "bindata.go".toList .file .nil)) .nil)) .nil)) .nil)))
          ".".toList
          [("go".toList, "// Copyright YEAR\n".toList), ("sh".toList, "# Copyright YEAR\n".toList)]
          []
        = ["cluster/env.sh".toList, "test/e2e/generated/bindata.go".toList] := by
  decide

/-- C15: a non-empty explicit list is returned as it is. -/
theorem getFileList_explicit (tree : Tree) (rootDir : Str) (extensions : Refs)
    (files : List Str) (h : files ≠ []) :
    getFileList tree rootDir extensions files = files := by
  have : ¬ files.length = 0 := fun e => h (List.length_eq_zero.1 e)
  rw [getFileList, if_neg this]

theorem getFileList_explicit_witness :
    ["vendor/x.go".toList, "notes.unknown".toList] ≠ [] ∧
      getFileList (.dir .nil) ".".toList [("go".toList, "// Copyright YEAR\n".toList)]
          ["vendor/x.go".toList, "notes.unknown".toList]
        = ["vendor/x.go".toList, "notes.unknown".toList] :=
  ⟨by decide, getFileList_explicit _ _ _ _ (by decide)⟩

/-! ## The report -/

theorem reportLoop_some (readFile : Str → Option Bytes) (refs : Refs) :
    ∀ (files out0 out : List Str), reportLoop readFile refs files out0 = some out →
      out = out0 ++ files.filter (fun f =>
        !filePasses (String.mk (getFileExtension f)) ((readFile f).getD [])
          (mapGet refs (getFileExtension f))) := by
  intro files
  induction files with
  | nil =>
    intro out0 out h
    simp only [reportLoop, Option.some.injEq] at h
    simp [h]
  | cons f files ih =>
    intro out0 out h
    rw [reportLoop] at h
    cases hr : readFile f with
    | none => simp [hr] at h
    | some data =>
      simp only [hr] at h
      by_cases hp : filePasses (String.mk (getFileExtension f)) data
          (mapGet refs (getFileExtension f)) = true
      · rw [if_pos hp] at h
        rw [ih _ _ h]
        simp [List.filter_cons, hr, hp]
      · rw [if_neg hp] at h
        rw [ih _ _ h]
        simp [List.filter_cons, hr, hp]

theorem reportLoop_readable (readFile : Str → Option Bytes) (refs : Refs)
    (content : Str → Bytes) :
    ∀ (files out0 : List Str), (∀ f ∈ files, readFile f = some (content f)) →
      ∃ out, reportLoop readFile refs files out0 = some out := by
  intro files
  induction files with
  | nil => intro out0 _; exact ⟨out0, rfl⟩
  | cons f files ih =>
    intro out0 h
    have hf := h f (List.mem_cons_self _ _)
    have ht : ∀ g ∈ files, readFile g = some (content g) :=
      fun g hg => h g (List.mem_cons_of_mem _ hg)
    rw [reportLoop, hf]
    simp only
    split
    · exact ih _ ht
    · exact ih _ ht

theorem filter_congr_mem {α : Type} (p q : α → Bool) (l : List α)
    (h : ∀ a ∈ l, p a = q a) : l.filter p = l.filter q := by
  induction l with
  | nil => rfl
  | cons a l ih =>
    have ha := h a (List.mem_cons_self _ _)
    have hl := ih (fun b hb => h b (List.mem_cons_of_mem _ hb))
    simp [List.filter_cons, ha, hl]

/-- C16, amended: when the references are loaded and every candidate file can
be read, `main` writes the count line (`number of files `, a further space,
and the number of candidates) and then the paths of the candidates that
`filePasses` rejects, in the order of the candidate list. -/
theorem main_report (glob : Str → List Str) (readFile : Str → Option Bytes) (tree : Tree)
    (boilerplatedir rootdir : Str) (filenames : List Str) (refs : Refs)
    (content : Str → Bytes)
    (hrefs : getRefs glob readFile boilerplatedir = some refs) (hne : refs ≠ [])
    (hread : ∀ f ∈ getFileList tree rootdir refs filenames, readFile f = some (content f)) :
    main glob readFile tree boilerplatedir rootdir filenames
      = some (countLine (getFileList tree rootdir refs filenames).length ::
          (getFileList tree rootdir refs filenames).filter (fun f =>
            !filePasses (String.mk (getFileExtension f)) (content f)
              (mapGet refs (getFileExtension f)))) := by
  have hl : ¬ refs.length = 0 := fun e => hne (List.length_eq_zero.1 e)
  rw [main, hrefs]
  simp only [if_neg hl]
  obtain ⟨out, hout⟩ := reportLoop_readable readFile refs content _
    [countLine (getFileList tree rootdir refs filenames).length] hread
  rw [hout, reportLoop_some _ _ _ _ _ hout]
  simp only [List.singleton_append, Option.some.injEq, List.cons.injEq, true_and]
  apply filter_congr_mem
  intro f hf
  rw [hread f hf]
  rfl

theorem main_report_witness :
    main (fun _ => ["hack/boilerplate/boilerplate.go.txt".toList])
        (fun p => if p = "a.go".toList then some "// Copyright 2021\n\npackage a\n".toList
          else some "// Copyright YEAR\n".toList)
        (.dir (.cons "a.go".toList .file (.cons "b.go".toList .file .nil)))
        "hack/boilerplate".toList ".".toList []
      = some ["number of files  2".toList, "b.go".toList] :=
  (main_report _ _ _ _ _ _ [("go".toList, "// Copyright YEAR\n".toList)]
    (fun p => if p = "a.go".toList then "// Copyright 2021\n\npackage a\n".toList
      else "// Copyright YEAR\n".toList)
    (by decide) (by decide) (by decide)).trans (by decide)

/-- C16 as stated fails: the count line has two spaces in front of the number,
the one the literal of line 52 ends with and the one `Println` puts between
its operands; on no candidate file the report is `number of files  0`. -/
theorem main_report_counterexample :
    ¬ (∀ (glob : Str → List Str) (readFile : Str → Option Bytes) (tree : Tree)
        (boilerplatedir rootdir : Str) (filenames : List Str) (refs : Refs)
        (content : Str → Bytes),
        getRefs glob readFile boilerplatedir = some refs → refs ≠ [] →
        (∀ f ∈ getFileList tree rootdir refs filenames, readFile f = some (content f)) →
        main glob readFile tree boilerplatedir rootdir filenames
          = some (("number of files ".toList ++
                (Nat.repr (getFileList tree rootdir refs filenames).length).toList) ::
              (getFileList tree rootdir refs filenames).filter (fun f =>
                !filePasses (String.mk (getFileExtension f)) (content f)
                  (mapGet refs (getFileExtension f))))) := by
  intro h
  have h1 := h (fun _ => ["hack/boilerplate/boilerplate.go.txt".toList])
    (fun _ => some "// Copyright YEAR\n".toList) (.dir .nil)
    "hack/boilerplate".toList ".".toList [] [("go".toList, "// Copyright YEAR\n".toList)]
    (fun _ => "// Copyright YEAR\n".toList) (by decide) (by decide) (by decide)
  revert h1
  decide

/-! ## The extension of a file name -/

theorem split_ne_nil (sep : Char) (s : Str) : split sep s ≠ [] := by
  cases s with
  | nil => simp [split]
  | cons c t =>
    rw [split]
    split
    · simp
    · split <;> simp

theorem split_of_not_mem (sep : Char) (s : Str) (h : sep ∉ s) : split sep s = [s] := by
  induction s with
  | nil => rfl
  | cons c t ih =>
    simp only [List.mem_cons, not_or] at h
    have hc : ¬ c = sep := fun e => h.1 e.symm
    rw [split, if_neg hc, ih h.2]

theorem split_append (sep : Char) (a b : Str) :
    split sep (a ++ sep :: b) = split sep a ++ split sep b := by
  induction a with
  | nil => simp [split]
  | cons c t ih =>
    rw [List.cons_append, split, split, ih]
    by_cases hc : c = sep
    · simp [hc]
    · rw [if_neg hc, if_neg hc]
      cases hs : split sep t with
      | nil => exact absurd hs (split_ne_nil sep t)
      | cons piece pieces => rfl

/-- A string is cut at its last `c`: what `afterLast` returns is the part
behind it. -/
theorem afterLast_cases (c : Char) (s : Str) :
    (c ∉ s ∧ afterLast c s = s) ∨
      ∃ a, s = a ++ c :: afterLast c s ∧ c ∉ afterLast c s := by
  have hsplit : s = (s.reverse.dropWhile (fun x => x ≠ c)).reverse ++ afterLast c s := by
    rw [afterLast, ← List.reverse_append, List.takeWhile_append_dropWhile, List.reverse_reverse]
  have hnot : c ∉ afterLast c s := by
    intro hm
    rw [afterLast, List.mem_reverse] at hm
    have := List.mem_takeWhile_imp hm
    simp at this
  cases hd : s.reverse.dropWhile (fun x => x ≠ c) with
  | nil =>
    left
    rw [hd] at hsplit
    simp only [List.reverse_nil, List.nil_append] at hsplit
    exact ⟨by rw [hsplit]; exact hnot, hsplit.symm⟩
  | cons x r =>
    right
    have hx : x = c := by
      have := List.head_dropWhile_not (fun x => decide (x ≠ c)) s.reverse (by rw [hd]; simp)
      simp only [hd, List.head_cons] at this
      simpa using this
    subst hx
    rw [hd] at hsplit
    refine ⟨r.reverse, ?_, hnot⟩
    rw [List.reverse_cons, List.append_assoc] at hsplit
    exact hsplit

theorem getLastD_split (c : Char) (s : Str) : (split c s).getLastD [] = afterLast c s := by
  rcases afterLast_cases c s with ⟨hn, he⟩ | ⟨a, he, hn⟩
  · rw [split_of_not_mem c s hn, he]
    rfl
  · have h1 : split c s = split c a ++ [afterLast c s] := by
      conv_lhs => rw [he]
      rw [split_append, split_of_not_mem c _ hn]
    rw [h1]
    simp [List.getLastD_eq_getLast?]

/-- C17, amended: `getFileExtension` returns the part of the base name after
its last `.`, lower-cased; for a base name without `.` this is the base name,
lower-cased. -/
theorem getFileExtension_spec (filename : Str) :
    getFileExtension filename = toLower (afterLast '.' (base filename)) ∧
      ('.' ∉ base filename → getFileExtension filename = toLower (base filename)) := by
  have h : getFileExtension filename = toLower (afterLast '.' (base filename)) := by
    rw [getFileExtension, getLastD_split]
  refine ⟨h, fun hn => ?_⟩
  rcases afterLast_cases '.' (base filename) with ⟨_, he⟩ | ⟨a, he, _⟩
  · rw [h, he]
  · exfalso
    apply hn
    rw [he]
    simp

theorem getFileExtension_spec_witness :
    getFileExtension "hack/Boilerplate.Test.GO".toList = "go".toList ∧
      ('.' ∉ base "hack/Makefile".toList) ∧
      getFileExtension "hack/Makefile".toList = "makefile".toList :=
  ⟨(getFileExtension_spec "hack/Boilerplate.Test.GO".toList).1.trans (by decide),
    by decide,
    ((getFileExtension_spec "hack/Makefile".toList).2 (by decide)).trans (by decide)⟩

/-- C17 as stated fails: the file name `Makefile` has no `.`, and the result
is `makefile`, not the file name. -/
theorem getFileExtension_spec_counterexample :
    ¬ (∀ filename : Str, '.' ∉ base filename → getFileExtension filename = filename) := by
  intro h
  have h1 := h "Makefile".toList (by decide)
  revert h1
  decide

/-! ## Files without a reference, references with a year -/

/-- C18: against the empty (or missing, nil) reference every content passes;
hence a file whose extension has no reference is not among the paths that
`main` writes behind the count line. -/
theorem filePasses_no_reference (glob : Str → List Str) (readFile : Str → Option Bytes)
    (tree : Tree) (boilerplatedir rootdir : Str) (filenames out : List Str) (refs : Refs)
    (file : Str)
    (hrefs : getRefs glob readFile boilerplatedir = some refs)
    (hmain : main glob readFile tree boilerplatedir rootdir filenames = some out)
    (hfile : mapGet refs (getFileExtension file) = []) :
    (∀ (extension : String) (data : Bytes), filePasses extension data [] = true) ∧
      file ∉ out.tail := by
  have hnil : ∀ (extension : String) (data : Bytes), filePasses extension data [] = true :=
    fun extension data => headerMatches_nil _
  refine ⟨hnil, ?_⟩
  rw [main, hrefs] at hmain
  simp only at hmain
  split at hmain
  · exact absurd hmain (by simp)
  · rw [reportLoop_some _ _ _ _ _ hmain]
    simp only [List.singleton_append, List.tail_cons, List.mem_filter, not_and]
    intro _
    rw [hfile, hnil]
    decide

theorem filePasses_no_reference_witness :
    main (fun _ => ["hack/boilerplate/boilerplate.go.txt".toList])
        (fun p => if p = "README.md".toList then some "# Read me\n".toList
          else some "// Copyright YEAR\n".toList)
        (.dir .nil) "hack/boilerplate".toList ".".toList ["README.md".toList]
        = some ["number of files  1".toList] ∧
      ((∀ (extension : String) (data : Bytes), filePasses extension data [] = true) ∧
        "README.md".toList ∉ ["number of files  1".toList].tail) :=
  ⟨by decide,
    filePasses_no_reference (fun _ => ["hack/boilerplate/boilerplate.go.txt".toList])
      (fun p => if p = "README.md".toList then some "# Read me\n".toList
        else some "// Copyright YEAR\n".toList)
      (.dir .nil) "hack/boilerplate".toList ".".toList ["README.md".toList]
      ["number of files  1".toList] [("go".toList, "// Copyright YEAR\n".toList)]
      "README.md".toList (by decide) (by decide) (by decide)⟩

/-- C19: year normalisation keeps the length, its result holds no
`Copyright <4 digits>`, and no content passes against a reference that holds
one. -/
theorem filePasses_year_in_ref (extension : String) (x data ref u : Bytes) (hu : IsYear u)
    (href : (copyrightLit ++ u) <:+: ref) :
    (replaceYear x).length = x.length ∧ ¬ (copyrightLit ++ u) <:+: replaceYear x ∧
      filePasses extension data ref = false := by
  have hno : ∀ y : Bytes, ¬ (copyrightLit ++ u) <:+: replaceYear y := by
    rintro y ⟨p, s, e⟩
    exact replaceYearAux_no_year _ y p u s (Nat.le_refl _) hu e.symm
  refine ⟨replaceYear_length x, hno x, ?_⟩
  cases hf : filePasses extension data ref with
  | false => rfl
  | true =>
    exfalso
    rw [filePasses, headerMatches_iff] at hf
    apply hno ((preprocess extension data).take ref.length)
    rw [hf.2.2]
    exact href

theorem filePasses_year_in_ref_witness :
    IsYear "2019".toList ∧
      (copyrightLit ++ "2019".toList) <:+: "// Copyright 2019 The Foo Authors\n".toList ∧
      ((replaceYear "// Copyright 2019 The Foo Authors\n".toList).length
          = "// Copyright 2019 The Foo Authors\n".toList.length ∧
        ¬ (copyrightLit ++ "2019".toList)
          <:+: replaceYear "// Copyright 2019 The Foo Authors\n".toList ∧
        filePasses "go" "// Copyright 2019 The Foo Authors\n\npackage a\n".toList
          "// Copyright 2019 The Foo Authors\n".toList = false) :=
  ⟨⟨rfl, by decide⟩, ⟨"// ".toList, " The Foo Authors\n".toList, by decide⟩,
    filePasses_year_in_ref "go" _ _ _ _ ⟨rfl, by decide⟩
      ⟨"// ".toList, " The Foo Authors\n".toList, by decide⟩⟩

/-! ## A root directory that matches the exclusion pattern -/

theorem matchHere_append (pat : List (Option Char)) :
    ∀ (s b : Str), matchHere pat s = true → matchHere pat (s ++ b) = true := by
  induction pat with
  | nil => intro s b _; simp [matchHere]
  | cons p ps ih =>
    intro s b h
    cases s with
    | nil => simp [matchHere] at h
    | cons c cs =>
      simp only [matchHere, Bool.and_eq_true] at h
      simp only [List.cons_append, matchHere, Bool.and_eq_true]
      exact ⟨h.1, ih cs b h.2⟩

theorem matchAnywhere_append (pat : List (Option Char)) (b : Str) :
    ∀ s : Str, matchAnywhere pat s = true → matchAnywhere pat (s ++ b) = true := by
  intro s
  induction s with
  | nil =>
    intro h
    rw [matchAnywhere] at h
    have hp : pat = [] := by
      cases pat with
      | nil => rfl
      | cons p ps => simp [matchHere] at h
    subst hp
    cases b with
    | nil => rfl
    | cons c cs => simp [matchAnywhere, matchHere]
  | cons c cs ih =>
    intro h
    rw [matchAnywhere, Bool.or_eq_true] at h
    rw [List.cons_append, matchAnywhere, Bool.or_eq_true]
    rcases h with h | h
    · exact Or.inl (matchHere_append pat (c :: cs) b h)
    · exact Or.inr (ih h)

/-- A path that starts with a path matching the exclusion pattern matches it. -/
theorem skippedPaths_append (s b : Str) (h : skippedPaths s = true) :
    skippedPaths (s ++ b) = true := by
  rw [skippedPaths, List.any_eq_true] at h ⊢
  obtain ⟨pat, hp, hm⟩ := h
  exact ⟨pat, hp, matchAnywhere_append pat b s hm⟩

theorem joinSep_snoc (n : Str) :
    ∀ es : List Str, es ≠ [] → joinSep (es ++ [n]) = joinSep es ++ '/' :: n := by
  intro es
  induction es with
  | nil => intro h; exact absurd rfl h
  | cons e es ih =>
    intro _
    cases es with
    | nil => simp [joinSep]
    | cons f fs =>
      have := ih (by simp)
      rw [List.cons_append, List.cons_append, joinSep, ← List.cons_append, this, joinSep]
      simp

theorem cleanStep_simple (rooted : Bool) (out : List Str) (n : Str)
    (hn : simpleName n = true) : cleanStep rooted out n = out ++ [n] := by
  simp only [simpleName, decide_eq_true_eq] at hn
  obtain ⟨h1, _, h3, h4⟩ := hn
  rw [cleanStep, if_neg (by simp [h1, h3]), if_neg h4]

theorem cleanStep_empty (rooted : Bool) (out : List Str) : cleanStep rooted out [] = out := by
  simp [cleanStep]

theorem clean_of_ne_nil (q : Str) (h : q ≠ []) :
    clean q =
      if decide (q.head? = some '/') = true then
        '/' :: joinSep ((split '/' q).foldl (cleanStep (decide (q.head? = some '/'))) [])
      else if joinSep ((split '/' q).foldl (cleanStep (decide (q.head? = some '/'))) []) = []
        then ['.']
      else joinSep ((split '/' q).foldl (cleanStep (decide (q.head? = some '/'))) []) := by
  rw [clean, if_neg h]

theorem head?_append_of_ne_nil (q x : Str) (h : q ≠ []) : (q ++ x).head? = q.head? := by
  cases q with
  | nil => exact absurd rfl h
  | cons c t => rfl

/-- Below a clean directory path `q` that matches the exclusion pattern, the
path `q/n` of an entry is clean, and `q/` cleans to `q`. -/
theorem clean_child (q n : Str) (hq : clean q = q) (hs : skippedPaths q = true)
    (hn : simpleName n = true) :
    clean (q ++ '/' :: n) = q ++ '/' :: n ∧ clean (q ++ ['/']) = q := by
  have hne : q ≠ [] := by
    rintro rfl
    exact absurd hs (by decide)
  have hslash : '/' ∉ n := by
    simp only [simpleName, decide_eq_true_eq] at hn
    exact hn.2.1
  have h1 : q ++ '/' :: n ≠ [] := by simp
  have h2 : q ++ ['/'] ≠ [] := by simp
  have hq' := hq
  rw [clean_of_ne_nil q hne] at hq'
  rw [clean_of_ne_nil _ h1, clean_of_ne_nil _ h2, head?_append_of_ne_nil q _ hne,
    head?_append_of_ne_nil q _ hne, split_append, split_append, split_of_not_mem '/' n hslash,
    List.foldl_append, List.foldl_append]
  simp only [List.foldl_cons, List.foldl_nil, split]
  rw [cleanStep_simple _ _ n hn, cleanStep_empty]
  generalize hE : (split '/' q).foldl (cleanStep (decide (q.head? = some '/'))) [] = E at hq' ⊢
  by_cases hr : decide (q.head? = some '/') = true
  · rw [if_pos hr] at hq' ⊢
    rw [if_pos hr]
    have hE0 : E ≠ [] := by
      rintro rfl
      rw [joinSep] at hq'
      rw [← hq'] at hs
      exact absurd hs (by decide)
    refine ⟨?_, hq'⟩
    rw [joinSep_snoc n E hE0]
    conv_rhs => rw [← hq']
    simp
  · rw [if_neg hr] at hq' ⊢
    rw [if_neg hr]
    have hJ : joinSep E ≠ [] := by
      intro hJ
      rw [if_pos hJ] at hq'
      rw [← hq'] at hs
      exact absurd hs (by decide)
    rw [if_neg hJ] at hq' ⊢
    have hE0 : E ≠ [] := by
      rintro rfl
      exact hJ rfl
    refine ⟨?_, hq'⟩
    rw [joinSep_snoc n E hE0, hq', if_neg (by simp)]

theorem dropWhile_reverse_child (q n : Str) (hslash : '/' ∉ n) :
    ((q ++ '/' :: n).reverse.dropWhile (fun c => c ≠ '/')).reverse = q ++ ['/'] := by
  have e : (q ++ '/' :: n).reverse = n.reverse ++ '/' :: q.reverse := by simp
  rw [e, List.dropWhile_append_of_pos, List.dropWhile_cons_of_neg]
  · simp
  · simp
  · intro c hc
    have : c ≠ '/' := by
      rintro rfl
      exact hslash (List.mem_reverse.1 hc)
    simpa using this

/-- The path and the directory of an entry `n` of the directory `q`. -/
theorem join_dir_child (q n : Str) (hq : clean q = q) (hs : skippedPaths q = true)
    (hn : simpleName n = true) :
    join q n = q ++ '/' :: n ∧ dir (q ++ '/' :: n) = q := by
  have hne : q ≠ [] := by
    rintro rfl
    exact absurd hs (by decide)
  have hslash : '/' ∉ n := by
    simp only [simpleName, decide_eq_true_eq] at hn
    exact hn.2.1
  obtain ⟨h1, h2⟩ := clean_child q n hq hs hn
  refine ⟨?_, ?_⟩
  · rw [join, if_pos hne, h1]
  · rw [dir, dropWhile_reverse_child q n hslash, h2]

mutual
theorem walk_skipped : ∀ (t : Tree) (p : Str), clean p = p → skippedPaths p = true →
    skippedPaths (dir p) = true → t.wellNamed = true →
    ∀ e ∈ walk p t, e.isDir = true ∨ skippedPaths (dir e.path) = true
  | .file, p, _, _, hd, _, e, he => by
    rw [walk, List.mem_singleton] at he
    subst he
    exact Or.inr hd
  | .dir names, p, hc, hs, _, hw, e, he => by
    rw [walk, List.mem_cons] at he
    rcases he with rfl | he
    · exact Or.inl rfl
    · rw [Tree.wellNamed] at hw
      exact walkNames_skipped names p hc hs hw e he
theorem walkNames_skipped : ∀ (names : Forest) (q : Str), clean q = q →
    skippedPaths q = true → names.wellNamed = true →
    ∀ e ∈ walkNames q names, e.isDir = true ∨ skippedPaths (dir e.path) = true
  | .nil, _, _, _, _, e, he => by
    rw [walkNames] at he
    exact absurd he (List.not_mem_nil e)
  | .cons name t rest, q, hc, hs, hw, e, he => by
    rw [Forest.wellNamed, Bool.and_eq_true, Bool.and_eq_true] at hw
    rw [walkNames, List.mem_append] at he
    obtain ⟨hj, hd⟩ := join_dir_child q name hc hs hw.1.1
    rcases he with he | he
    · rw [hj] at he
      exact walk_skipped t (q ++ '/' :: name) (clean_child q name hc hs hw.1.1).1
        (skippedPaths_append q _ hs) (by rw [hd]; exact hs) hw.1.2 e he
    · exact walkNames_skipped rest q hc hs hw.2 e he
end

/-- C20: when the root directory, a clean path, itself matches the exclusion
pattern, the walk returns no file, whatever the tree below the root holds. -/
theorem getFileList_excluded_root (names : Forest) (rootDir : Str) (extensions : Refs)
    (hclean : clean rootDir = rootDir) (hskip : skippedPaths rootDir = true)
    (hnames : names.wellNamed = true) :
    getFileList (.dir names) rootDir extensions [] = [] := by
  rw [getFileList, if_pos (by rfl), foldl_walkFn, List.nil_append, List.map_eq_nil_iff,
    List.filter_eq_nil_iff]
  intro e he
  rw [walk, List.mem_cons] at he
  have h : e.isDir = true ∨ skippedPaths (dir e.path) = true := by
    rcases he with rfl | he
    · exact Or.inl rfl
    · exact walkNames_skipped names rootDir hclean hskip hnames e he
  rcases h with h | h
  · simp [h]
  · simp [h]

theorem getFileList_excluded_root_witness :
    clean "src/vendor".toList = "src/vendor".toList ∧
      skippedPaths "src/vendor".toList = true ∧
      Forest.wellNamed (.cons "a.go".toList .file
        (.cons "pkg".toList (.dir (.cons "b.go".toList .file .nil)) .nil)) = true ∧
      getFileList
          (.dir (.cons "a.go".toList .file
            (.cons "pkg".toList (.dir (.cons "b.go".toList .file .nil)) .nil)))
          "src/vendor".toList [("go".toList, "// Copyright YEAR\n".toList)] [] = [] :=
  ⟨by decide, by decide, by decide,
    getFileList_excluded_root _ _ _ (by decide) (by decide) (by decide)⟩

end Boilerplate
